import Mathlib

/-!
# EMR-blockchain: the hash-linked ledger of `bin/blockchain.go`

A shallow embedding of the ledger core of `bin/blockchain.go` (the types `Block`,
`Transaction`, `Blockchain` and the functions `generateHash`, `CreateBlock`,
`AddBlock`, `GenesisBlock`, `NewBlockchain`, `validBlock`, `validateHash`),
followed by the properties of the specification that concern it.

Modelling decisions.

* The Go strings `Timestamp`, `Hash` and `PrevHash` are Lean `String`s, that is,
  valid UTF-8 (`time.Now().String()` is ASCII, hashes are hexadecimal); the program
  only copies and compares them, and their bytes are the UTF-8 encoding
  `utf8Encode`.  The strings of a payload are byte strings (`GoString`), valid UTF-8
  or not, because `json.Marshal` decodes them and writes every invalid byte alike;
  a text written between quotes stands for its UTF-8 bytes.
* Go `int` is a 64-bit two's complement integer: `Position` is an `Int` and
  `+` is `addInt`, which wraps.
* `time.Now().String()` is an input: the clock reading is passed as the
  argument `now` of `CreateBlock`, `AddBlock`, `GenesisBlock`, `NewBlockchain`.
* A method with a pointer receiver that writes to the receiver returns the new
  value of the receiver next to its result (`generateHash`, `validateHash`,
  `validBlock`).  A panic is `none`.
* `AddBlock` calls made by concurrent request handlers are followed statement by
  statement (`Progress`, `runSchedule`): a schedule names the call that takes the
  next step, and each of the four statements of `AddBlock` is one step.
* The library functions `sha256.New/Write/Sum`, `hex.EncodeToString` and
  `json.Marshal` are modelled by executable definitions (`Sha256.sum`,
  `hexEncodeToString`, `jsonMarshal`) following FIPS 180-4 and the Go library
  documentation.
-/

namespace EMR

/-! ## SHA-256 (FIPS 180-4), on bytes and 32-bit words held in `Nat` -/

namespace Sha256

/-- Round constants of SHA-256: the first 32 bits of the fractional parts of the cube
roots of the first sixty-four primes.  In hexadecimal:
  428a2f98 71374491 b5c0fbcf e9b5dba5 3956c25b 59f111f1 923f82a4 ab1c5ed5
  d807aa98 12835b01 243185be 550c7dc3 72be5d74 80deb1fe 9bdc06a7 c19bf174
  e49b69c1 efbe4786 0fc19dc6 240ca1cc 2de92c6f 4a7484aa 5cb0a9dc 76f988da
  983e5152 a831c66d b00327c8 bf597fc7 c6e00bf3 d5a79147 06ca6351 14292967
  27b70a85 2e1b2138 4d2c6dfc 53380d13 650a7354 766a0abb 81c2c92e 92722c85
  a2bfe8a1 a81a664b c24b8b70 c76c51a3 d192e819 d6990624 f40e3585 106aa070
  19a4c116 1e376c08 2748774c 34b0bcb5 391c0cb3 4ed8aa4a 5b9cca4f 682e6ff3
  748f82ee 78a5636f 84c87814 8cc70208 90befffa a4506ceb bef9a3f7 c67178f2 -/
def K : List Nat :=
  [1116352408, 1899447441, 3049323471, 3921009573, 961987163, 1508970993,
   2453635748, 2870763221, 3624381080, 310598401, 607225278, 1426881987,
   1925078388, 2162078206, 2614888103, 3248222580, 3835390401, 4022224774,
   264347078, 604807628, 770255983, 1249150122, 1555081692, 1996064986,
   2554220882, 2821834349, 2952996808, 3210313671, 3336571891, 3584528711,
   113926993, 338241895, 666307205, 773529912, 1294757372, 1396182291,
   1695183700, 1986661051, 2177026350, 2456956037, 2730485921, 2820302411,
   3259730800, 3345764771, 3516065817, 3600352804, 4094571909, 275423344,
   430227734, 506948616, 659060556, 883997877, 958139571, 1322822218,
   1537002063, 1747873779, 1955562222, 2024104815, 2227730452, 2361852424,
   2428436474, 2756734187, 3204031479, 3329325298]

/-- Initial hash value of SHA-256: the first 32 bits of the fractional parts of the
square roots of the first eight primes.  In hexadecimal:
  6a09e667 bb67ae85 3c6ef372 a54ff53a 510e527f 9b05688c 1f83d9ab 5be0cd19 -/
def H0 : List Nat :=
  [1779033703, 3144134277, 1013904242, 2773480762,
   1359893119, 2600822924, 528734635, 1541459225]

/-- Addition of 32-bit words. -/
def add32 (a b : Nat) : Nat := (a + b) % 4294967296

/-- Rotation of a 32-bit word to the right by `n` bits (`0 < n < 32`). -/
def rotr (w n : Nat) : Nat := ((w >>> n) ||| (w <<< (32 - n))) % 4294967296

/-- Bitwise complement of a 32-bit word. -/
def not32 (x : Nat) : Nat := x ^^^ 0xffffffff

/-- The function Ch of FIPS 180-4. -/
def ch (e f g : Nat) : Nat := (e &&& f) ^^^ (not32 e &&& g)

/-- The function Maj of FIPS 180-4. -/
def maj (a b c : Nat) : Nat := (a &&& b) ^^^ (a &&& c) ^^^ (b &&& c)

/-- The function written with a capital sigma, index 0. -/
def bigSigma0 (w : Nat) : Nat := rotr w 2 ^^^ rotr w 13 ^^^ rotr w 22

/-- The function written with a capital sigma, index 1. -/
def bigSigma1 (w : Nat) : Nat := rotr w 6 ^^^ rotr w 11 ^^^ rotr w 25

/-- The function written with a small sigma, index 0. -/
def smallSigma0 (w : Nat) : Nat := rotr w 7 ^^^ rotr w 18 ^^^ (w >>> 3)

/-- The function written with a small sigma, index 1. -/
def smallSigma1 (w : Nat) : Nat := rotr w 17 ^^^ rotr w 19 ^^^ (w >>> 10)

/-- Big-endian bytes of a 32-bit word. -/
def be32 (w : Nat) : List Nat :=
  [(w >>> 24) % 256, (w >>> 16) % 256, (w >>> 8) % 256, w % 256]

/-- Big-endian bytes of a 64-bit word. -/
def be64 (n : Nat) : List Nat :=
  [(n >>> 56) % 256, (n >>> 48) % 256, (n >>> 40) % 256, (n >>> 32) % 256,
   (n >>> 24) % 256, (n >>> 16) % 256, (n >>> 8) % 256, n % 256]

/-- Padding: the byte `0x80`, zero bytes up to 56 modulo 64, and the bit length on 64 bits. -/
def pad (msg : List Nat) : List Nat :=
  msg ++ [0x80] ++ List.replicate ((119 - msg.length % 64) % 64) 0 ++ be64 (8 * msg.length)

/-- The big-endian 32-bit words of a block of bytes. -/
def toWords : List Nat → List Nat
  | b0 :: b1 :: b2 :: b3 :: rest =>
      (b0 * 16777216 + b1 * 65536 + b2 * 256 + b3) :: toWords rest
  | _ => []

/-- Message schedule: the sixteen words of the block extended to sixty-four. -/
def schedule (block : List Nat) : List Nat :=
  (List.range 48).foldl
    (fun w i =>
      let t := i + 16
      w ++ [add32 (add32 (smallSigma1 (w.getD (t - 2) 0)) (w.getD (t - 7) 0))
                  (add32 (smallSigma0 (w.getD (t - 15) 0)) (w.getD (t - 16) 0))])
    (toWords block)

/-- One round on the working variables `[a, b, c, d, e, f, g, h]`. -/
def round (v : List Nat) (kw : Nat × Nat) : List Nat :=
  match v with
  | [a, b, c, d, e, f, g, h] =>
      let t1 := add32 (add32 (add32 h (bigSigma1 e)) (add32 (ch e f g) kw.1)) kw.2
      let t2 := add32 (bigSigma0 a) (maj a b c)
      [add32 t1 t2, a, b, c, add32 d t1, e, f, g]
  | _ => v

/-- Compression of one 64-byte block into the hash value. -/
def compress (hv : List Nat) (block : List Nat) : List Nat :=
  List.zipWith add32 hv ((K.zip (schedule block)).foldl round hv)

/-- The first `n` 64-byte blocks of a byte sequence. -/
def blocks : Nat → List Nat → List (List Nat)
  | 0, _ => []
  | n + 1, bs => bs.take 64 :: blocks n (bs.drop 64)

/-- The eight words of the final hash value. -/
def hashWords (msg : List Nat) : List Nat :=
  let p := pad msg
  (blocks (p.length / 64) p).foldl compress H0

/-- The 32-byte SHA-256 digest of a byte sequence. -/
def sum (msg : List Nat) : List Nat :=
  let hv := hashWords msg
  (List.range 8).flatMap (fun i => be32 (hv.getD i 0))

end Sha256

/-! ## Library encodings -/

/-- One lowercase hexadecimal digit (the table `hextable` of `encoding/hex`). -/
def hexDigit (n : Nat) : Char :=
  if n < 10 then Char.ofNat (48 + n) else Char.ofNat (87 + n)

/-- Model of `hex.EncodeToString`: two lowercase hexadecimal digits for each byte. -/
def hexEncodeToString (bs : List Nat) : String :=
  String.mk (bs.flatMap (fun b => [hexDigit (b / 16 % 16), hexDigit (b % 16)]))

/-- UTF-8 encoding of one character. -/
def utf8EncodeChar (c : Char) : List Nat :=
  let v := c.toNat
  if v < 0x80 then [v]
  else if v < 0x800 then [0xC0 + v / 64, 0x80 + v % 64]
  else if v < 0x10000 then [0xE0 + v / 4096, 0x80 + v / 64 % 64, 0x80 + v % 64]
  else [0xF0 + v / 262144, 0x80 + v / 4096 % 64, 0x80 + v / 64 % 64, 0x80 + v % 64]

/-- The bytes of a Go string (`[]byte(s)`): the UTF-8 encoding of its characters. -/
def utf8Encode (s : String) : List Nat :=
  s.data.flatMap utf8EncodeChar

/-- Go conversion `string(v)` of an `int` to a string: the UTF-8 text of the code
point `v`, and U+FFFD for a value that is not a valid code point (negative,
a surrogate, or above `0x10FFFF`). -/
def intToString (v : Int) : String :=
  if (0 ≤ v ∧ v < 0xD800) ∨ (0xDFFF < v ∧ v ≤ 0x10FFFF) then
    String.singleton (Char.ofNat v.toNat)
  else "\uFFFD"

/-- Escaping of one character inside a JSON string by `encoding/json` (HTML escaping
on, as `json.Marshal` has it): `"` and `\` get a backslash, backspace, form feed,
line feed, carriage return and tab their short form, the other control characters
and `<`, `>`, `&` the form `\u00XX`, U+2028 and U+2029 the form `\u202X`; every
other character is copied.  (Go releases before 1.22 write backspace and form feed
as `\u0008` and `\u000c`.) -/
def jsonEscapeChar (c : Char) : List Char :=
  let v := c.toNat
  if c = '"' ∨ c = '\\' then ['\\', c]
  else if c = '\x08' then ['\\', 'b']
  else if c = '\x0c' then ['\\', 'f']
  else if c = '\n' then ['\\', 'n']
  else if c = '\r' then ['\\', 'r']
  else if c = '\t' then ['\\', 't']
  else if v < 0x20 ∨ c = '<' ∨ c = '>' ∨ c = '&' then
    ['\\', 'u', '0', '0', hexDigit (v / 16), hexDigit (v % 16)]
  else if v = 0x2028 ∨ v = 0x2029 then
    ['\\', 'u', '2', '0', '2', hexDigit (v % 16)]
  else [c]

/-- A Go string whose bytes need not be valid UTF-8 (the strings of a payload):
the list of its bytes.  A number above 255 is no byte and is read as an invalid
one. -/
abbrev GoString := List Nat

/-- A text as a Go string: its UTF-8 encoding. -/
instance : Coe String GoString := ⟨utf8Encode⟩

/-- Model of `utf8.DecodeRuneInString`: the code point at the head of `s` and the
number of bytes it takes, `none` where Go returns `(RuneError, 1)` (or, on the
empty string, `(RuneError, 0)`).  The second byte of a three-byte sequence after
`0xE0` or `0xED` and of a four-byte sequence after `0xF0` or `0xF4` has a
narrower range, which excludes overlong forms, surrogates and code points above
`0x10FFFF`. -/
def decodeRune : List Nat → Option (Nat × Nat)
  | [] => none
  | s0 :: rest =>
      if s0 < 0x80 then some (s0, 1)
      else if 0xC2 ≤ s0 ∧ s0 ≤ 0xDF then
        match rest with
        | s1 :: _ =>
            if 0x80 ≤ s1 ∧ s1 ≤ 0xBF then some (s0 % 32 * 64 + s1 % 64, 2) else none
        | _ => none
      else if 0xE0 ≤ s0 ∧ s0 ≤ 0xEF then
        match rest with
        | s1 :: s2 :: _ =>
            if (if s0 = 0xE0 then 0xA0 else 0x80) ≤ s1 ∧
                s1 ≤ (if s0 = 0xED then 0x9F else 0xBF) ∧ 0x80 ≤ s2 ∧ s2 ≤ 0xBF then
              some (s0 % 16 * 4096 + s1 % 64 * 64 + s2 % 64, 3)
            else none
        | _ => none
      else if 0xF0 ≤ s0 ∧ s0 ≤ 0xF4 then
        match rest with
        | s1 :: s2 :: s3 :: _ =>
            if (if s0 = 0xF0 then 0x90 else 0x80) ≤ s1 ∧
                s1 ≤ (if s0 = 0xF4 then 0x8F else 0xBF) ∧ 0x80 ≤ s2 ∧ s2 ≤ 0xBF ∧
                0x80 ≤ s3 ∧ s3 ≤ 0xBF then
              some (s0 % 8 * 262144 + s1 % 64 * 4096 + s2 % 64 * 64 + s3 % 64, 4)
            else none
        | _ => none
      else none

/-- The runes of a Go string as the loop of `encoding/json` reads them: at each
position `decodeRune` gives either a character and its size, and the loop moves
on by that size, or an invalid byte (`none`), and the loop moves on by one byte.
The first argument counts the bytes still to skip of the character read last. -/
def decodeRunes : Nat → List Nat → List (Option Char)
  | _, [] => []
  | skip + 1, _ :: rest => decodeRunes skip rest
  | 0, b :: rest =>
      match decodeRune (b :: rest) with
      | some (v, size) => some (Char.ofNat v) :: decodeRunes (size - 1) rest
      | none => none :: decodeRunes 0 rest

/-- Escaping of one rune of a Go string: an invalid byte is written `\ufffd`. -/
def jsonEscapeRune : Option Char → List Char
  | some c => jsonEscapeChar c
  | none => ['\\', 'u', 'f', 'f', 'f', 'd']

/-- A JSON string literal: the escaped runes between double quotes. -/
def jsonString (s : GoString) : List Char :=
  '"' :: ((decodeRunes 0 s).flatMap jsonEscapeRune ++ ['"'])

/-- A JSON boolean. -/
def jsonBool (b : Bool) : List Char :=
  if b then "true".data else "false".data

/-! ## Data model -/

/-- Transaction contains data for a checked out MedicalRecord. -/
structure Transaction where
  WalletAddress : GoString
  UserID : GoString
  UserRole : GoString
  UpdatedKey : GoString
  UpdatedValue : GoString
  IsGenesis : Bool
  deriving DecidableEq, Repr

/-- Block contains data that will be written to the blockchain. -/
structure Block where
  Position : Int
  Data : Transaction
  Timestamp : String
  Hash : String
  PrevHash : String
  deriving DecidableEq, Repr

/-- Blockchain is an ordered list of blocks. -/
structure Blockchain where
  blocks : List Block
  deriving DecidableEq, Repr

/-- The zero value `Transaction{}`. -/
def Transaction.zero : Transaction := ⟨[], [], [], [], [], false⟩

/-- The zero value `Block{}`. -/
def Block.zero : Block := ⟨0, Transaction.zero, "", "", ""⟩

/-- Addition of Go `int` values (64 bits, two's complement, wrapping). -/
def addInt (a b : Int) : Int :=
  (a + b + 9223372036854775808) % 18446744073709551616 - 9223372036854775808

/-- Model of `json.Marshal` on a `Transaction`: the six fields in declaration
order under their `json` tags. -/
def jsonMarshal (t : Transaction) : String :=
  String.mk
    ("\x7b\"wallet_address\":".data ++ jsonString t.WalletAddress ++
     ",\"user_id\":".data ++ jsonString t.UserID ++
     ",\"user_role\":".data ++ jsonString t.UserRole ++
     ",\"updated_key\":".data ++ jsonString t.UpdatedKey ++
     ",\"updated_value\":".data ++ jsonString t.UpdatedValue ++
     ",\"is_genesis\":".data ++ jsonBool t.IsGenesis ++ "\x7d".data)

/-! ## The ledger -/

/-- The string `data` that `generateHash` builds and feeds to SHA-256:
`string(b.Position) + b.Timestamp + string(bytes) + b.PrevHash`. -/
def digestInput (b : Block) : String :=
  intToString b.Position ++ b.Timestamp ++ jsonMarshal b.Data ++ b.PrevHash

/-- The value `hex.EncodeToString(hash.Sum(nil))` computed by `generateHash`. -/
def digest (b : Block) : String :=
  hexEncodeToString (Sha256.sum (utf8Encode (digestInput b)))

/-- Method `(b *Block) generateHash()`: stores the digest in `b.Hash`. -/
def generateHash (b : Block) : Block :=
  { b with Hash := digest b }

/-- Function `CreateBlock(prevBlock, transaction)`; `now` is `time.Now().String()`. -/
def CreateBlock (prevBlock : Block) (transaction : Transaction) (now : String) : Block :=
  let block := Block.zero
  let block := { block with Position := addInt prevBlock.Position 1 }
  let block := { block with Timestamp := now }
  let block := { block with Data := transaction }
  let block := { block with PrevHash := prevBlock.Hash }
  generateHash block

/-- Method `(b *Block) validateHash(hash)`: regenerates `b.Hash` in place and
compares it with `hash`.  Returns the result and the new value of `b`. -/
def validateHash (b : Block) (hash : String) : Bool × Block :=
  let b := generateHash b
  if b.Hash ≠ hash then (false, b) else (true, b)

/-- Function `validBlock(block, prevBlock)` for two distinct blocks.  Returns the
result and the new value of `block`; `prevBlock` is only read. -/
def validBlock (block prevBlock : Block) : Bool × Block :=
  if prevBlock.Hash ≠ block.PrevHash then (false, block)
  else
    let r := validateHash block block.Hash
    if !r.1 then (false, r.2)
    else if addInt prevBlock.Position 1 ≠ r.2.Position then (false, r.2)
    else (true, r.2)

/-- The call `validBlock(b, b)`, both arguments being the same pointer: the write
of `validateHash` is then seen through `prevBlock` too.  Returns the result and
the new value of `b`. -/
def validBlockSame (b : Block) : Bool × Block :=
  if b.Hash ≠ b.PrevHash then (false, b)
  else
    let r := validateHash b b.Hash
    if !r.1 then (false, r.2)
    else if addInt r.2.Position 1 ≠ r.2.Position then (false, r.2)
    else (true, r.2)

/-- The guarded append that ends `AddBlock`:
`if validBlock(block, prevBlock) { bc.blocks = append(bc.blocks, block) }`. -/
def commit (bc : Blockchain) (block prevBlock : Block) : Blockchain :=
  let r := validBlock block prevBlock
  if r.1 then { bc with blocks := bc.blocks ++ [r.2] } else bc

/-- Method `(bc *Blockchain) AddBlock(data)`; `now` is the clock reading taken by
`CreateBlock`.  Indexing an empty `bc.blocks` panics (`none`). -/
def AddBlock (bc : Blockchain) (data : Transaction) (now : String) : Option Blockchain :=
  match bc.blocks.getLast? with
  | none => none
  | some prevBlock =>
      let block := CreateBlock prevBlock data now
      some (commit bc block prevBlock)

/-- Function `GenesisBlock()`. -/
def GenesisBlock (now : String) : Block :=
  CreateBlock Block.zero { Transaction.zero with IsGenesis := true } now

/-- Function `NewBlockchain()`. -/
def NewBlockchain (now : String) : Blockchain :=
  { blocks := [GenesisBlock now] }

/-- The chain after `NewBlockchain()` and a sequence of `AddBlock` calls, each given
by its payload and its clock reading; `none` if a call panics. -/
def chainAfter (now : String) (calls : List (Transaction × String)) : Option Blockchain :=
  calls.foldl (fun s call => s.bind (fun bc => AddBlock bc call.1 call.2))
    (some (NewBlockchain now))

/-! ## Predicates and sample values used in the statements -/

/-- The relation between a block `p` and its successor `c` in a chain. -/
def Linked (p c : Block) : Prop :=
  c.PrevHash = p.Hash ∧ c.Position = addInt p.Position 1

/-- The invariant of the ledger: not empty, consecutive blocks linked, every block
carrying its own digest, the block at index `i` at `Position` `i + 1`. -/
def ChainInv (bc : Blockchain) : Prop :=
  bc.blocks ≠ [] ∧ List.Chain' Linked bc.blocks ∧ (∀ b ∈ bc.blocks, b.Hash = digest b) ∧
    ∀ (i : Nat) (b : Block), bc.blocks[i]? = some b → b.Position = addInt i 1

/-- A payload. -/
def samplePayload : Transaction :=
  ⟨"w1", "u1", "doctor", "allergies", "penicillin", false⟩

/-- The block committed at `Position` 55296 (`0xD800`): the successor of a block at
`Position` 55295. -/
def blockAtD800 : Block :=
  CreateBlock
    ⟨55295, ⟨"w0", "u0", "doctor", "k0", "v0", false⟩, "2020-01-01 00:00:00 +0000 UTC",
      "3b1f6c2d", "9a0e77c4"⟩
    samplePayload
    "2020-01-01 00:00:01 +0000 UTC"

/-- A block with an empty `Timestamp` whose `PrevHash` is the JSON text of its payload. -/
def jsonInPrevHash : Block :=
  ⟨1, samplePayload, "", "", jsonMarshal samplePayload⟩

/-- A block with an empty `PrevHash` whose `Timestamp` is the JSON text of its payload. -/
def jsonInTimestamp : Block :=
  ⟨1, samplePayload, jsonMarshal samplePayload, "", ""⟩

/-- A block whose payload holds the string of the three bytes `a`, `byte`, `b`;
with `byte` 255 or 254 it is not valid UTF-8. -/
def invalidByteBlock (byte : Nat) : Block :=
  ⟨2, ⟨"w1", "u1", "doctor", "allergies", [97, byte, 98], false⟩,
    "2020-01-01 00:00:01 +0000 UTC", "",
    "4fb5ee5d0157dfe29ea65ec5dd57c581b11bbedad3dbf238f7d9ec406be86a4d"⟩

/-- Two blocks that differ in their payload only. -/
def sampleBlock (value : String) : Block :=
  ⟨2, ⟨"w1", "u1", "doctor", "allergies", value, false⟩, "2020-01-01 00:00:01 +0000 UTC", "",
    "4fb5ee5d0157dfe29ea65ec5dd57c581b11bbedad3dbf238f7d9ec406be86a4d"⟩

/-- The payload as `json.Marshal` reads it: the runes of its five strings, all
invalid bytes alike, and the flag. -/
def payloadRunes (t : Transaction) : List (List (Option Char)) × Bool :=
  ([decodeRunes 0 t.WalletAddress, decodeRunes 0 t.UserID, decodeRunes 0 t.UserRole,
    decodeRunes 0 t.UpdatedKey, decodeRunes 0 t.UpdatedValue], t.IsGenesis)

/-- A Go string that is valid UTF-8: the encoding of a text. -/
def IsUTF8 (s : GoString) : Prop :=
  ∃ t : String, utf8Encode t = s

/-- A payload all of whose strings are valid UTF-8. -/
def IsTextPayload (t : Transaction) : Prop :=
  IsUTF8 t.WalletAddress ∧ IsUTF8 t.UserID ∧ IsUTF8 t.UserRole ∧ IsUTF8 t.UpdatedKey ∧
    IsUTF8 t.UpdatedValue

/-- A character in `0-9` or `a-f`. -/
def isLowerHex (c : Char) : Bool :=
  ('0' ≤ c && c ≤ '9') || ('a' ≤ c && c ≤ 'f')

/-- The hexadecimal rendering of a 256-bit digest: sixty-four characters, each in
`0-9` or `a-f`. -/
def IsHexDigest (s : String) : Prop :=
  s.length = 64 ∧ ∀ c ∈ s.data, isLowerHex c = true

/-! ## Interleaved `AddBlock` calls

`AddBlock` takes no lock.  Its body is four steps (read the tail, build the
candidate, validate, append); a call is followed from step to step, and a schedule
says which call takes the next step. -/

/-- How far one call `bc.AddBlock(data)` has come, with its local variables. -/
inductive Progress where
  /-- Called, nothing executed yet; `now` is the clock reading `CreateBlock` will take. -/
  | called (data : Transaction) (now : String)
  /-- After `prevBlock := bc.blocks[len(bc.blocks)-1]`. -/
  | tailRead (prevBlock : Block) (data : Transaction) (now : String)
  /-- After `block := CreateBlock(prevBlock, data)`. -/
  | built (block prevBlock : Block)
  /-- After `validBlock(block, prevBlock)` has returned `ok`. -/
  | validated (ok : Bool) (block : Block)
  /-- After the guarded `bc.blocks = append(bc.blocks, block)`. -/
  | returned
  deriving DecidableEq, Repr

/-- The shared chain and the progress of every call in flight. -/
structure Interleaved where
  bc : Blockchain
  progress : List Progress
  deriving DecidableEq, Repr

/-- The next step of one call on the shared chain; `none` is the panic of the tail
lookup on an empty chain.  A call that has returned does nothing. -/
def stepCall (bc : Blockchain) : Progress → Option (Blockchain × Progress)
  | .called data now =>
      match bc.blocks.getLast? with
      | none => none
      | some prevBlock => some (bc, .tailRead prevBlock data now)
  | .tailRead prevBlock data now =>
      some (bc, .built (CreateBlock prevBlock data now) prevBlock)
  | .built block prevBlock =>
      let r := validBlock block prevBlock
      some (bc, .validated r.1 r.2)
  | .validated ok block =>
      some (if ok then { bc with blocks := bc.blocks ++ [block] } else bc, .returned)
  | .returned => some (bc, .returned)

/-- Call number `i` takes its next step (no such call: nothing happens). -/
def step (s : Interleaved) (i : Nat) : Option Interleaved :=
  match s.progress[i]? with
  | none => some s
  | some c => (stepCall s.bc c).map (fun r => { bc := r.1, progress := s.progress.set i r.2 })

/-- The steps of a schedule, one after the other. -/
def runSchedule (s : Interleaved) : List Nat → Option Interleaved
  | [] => some s
  | i :: rest => (step s i).bind (fun s1 => runSchedule s1 rest)

/-- The calls `AddBlock(data)` of `calls`, all made and none started, on the chain `bc`. -/
def startCalls (bc : Blockchain) (calls : List (Transaction × String)) : Interleaved :=
  { bc := bc, progress := calls.map (fun c => Progress.called c.1 c.2) }

/-- The schedule in which the calls run one after the other in the given order,
each taking its four steps in a row. -/
def serialSchedule (order : List Nat) : List Nat :=
  order.flatMap (fun i => [i, i, i, i])

/-- Another payload. -/
def otherPayload : Transaction :=
  ⟨"w2", "u2", "nurse", "prescriptions", "ibuprofen", false⟩

/-! ## Basic facts about the operations -/

/-! The model of SHA-256 on the test vectors of FIPS 180-4: the empty message, a
one-block message and a two-block message. -/

set_option maxRecDepth 1000000 in
set_option maxHeartbeats 4000000 in
theorem Sha256.sum_nil :
    hexEncodeToString (Sha256.sum []) =
      "e3b0c44298fc1c149afbf4c8996fb92427ae41e4649b934ca495991b7852b855" := by
  decide

set_option maxRecDepth 1000000 in
set_option maxHeartbeats 4000000 in
theorem Sha256.sum_abc :
    hexEncodeToString (Sha256.sum (utf8Encode "abc")) =
      "ba7816bf8f01cfea414140de5dae2223b00361a396177a9cb410ff61f20015ad" := by
  decide

set_option maxRecDepth 1000000 in
set_option maxHeartbeats 4000000 in
theorem Sha256.sum_two_blocks :
    hexEncodeToString
        (Sha256.sum (utf8Encode "abcdbcdecdefdefgefghfghighijhijkijkljklmklmnlmnomnopnopq")) =
      "248d6a61d20638b8e5c026930c3e6039a33ce45964ff2167f6ecedd419db06c1" := by
  decide

/-- The JSON text of the genesis payload. -/
theorem jsonMarshal_genesis :
    jsonMarshal { Transaction.zero with IsGenesis := true } =
      "\x7b\"wallet_address\":\"\",\"user_id\":\"\",\"user_role\":\"\",\"updated_key\":\"\",\"updated_value\":\"\",\"is_genesis\":true\x7d" := by
  decide

/-- The JSON text of a payload with an invalid byte, a two-byte character, the
three bytes of an encoded surrogate (each invalid), backspace and form feed, and
U+2028. -/
theorem jsonMarshal_bytes :
    jsonMarshal ⟨[97, 255, 98], [195, 169], [237, 160, 128], "\x08\x0c", [226, 128, 168],
        false⟩ =
      "\x7b\"wallet_address\":\"a\\ufffdb\",\"user_id\":\"é\",\"user_role\":\"\\ufffd\\ufffd\\ufffd\",\"updated_key\":\"\\b\\f\",\"updated_value\":\"\\u2028\",\"is_genesis\":false\x7d" := by
  decide

/-- The JSON text of a payload with characters that are escaped. -/
theorem jsonMarshal_escapes :
    jsonMarshal ⟨"a\"b\\c", "<p>", "x&y", "line\nfeed\ttab", "\x01é", false⟩ =
      "\x7b\"wallet_address\":\"a\\\"b\\\\c\",\"user_id\":\"\\u003cp\\u003e\",\"user_role\":\"x\\u0026y\",\"updated_key\":\"line\\nfeed\\ttab\",\"updated_value\":\"\\u0001é\",\"is_genesis\":false\x7d" := by
  decide


theorem addInt_one_ne (x : Int) : addInt x 1 ≠ x := by
  unfold addInt
  omega

theorem addInt_one_ne_succ (x : Int) : addInt (addInt x 1) 1 ≠ addInt x 1 :=
  addInt_one_ne (addInt x 1)

/-- The digest does not read the `Hash` field. -/
theorem digest_generateHash (b : Block) : digest (generateHash b) = digest b := rfl

theorem digest_congr {b c : Block} (h : digestInput b = digestInput c) : digest b = digest c := by
  unfold digest
  rw [h]

theorem validateHash_fst (b : Block) (hash : String) :
    (validateHash b hash).1 = decide (digest b = hash) := by
  unfold validateHash generateHash
  by_cases h : digest b = hash <;> simp [h]

theorem validateHash_snd (b : Block) (hash : String) :
    (validateHash b hash).2 = { b with Hash := digest b } := by
  unfold validateHash generateHash
  by_cases h : digest b = hash <;> simp [h]

theorem validBlock_fst (block prevBlock : Block) :
    (validBlock block prevBlock).1 =
      decide (block.PrevHash = prevBlock.Hash ∧ block.Position = addInt prevBlock.Position 1 ∧
        block.Hash = digest block) := by
  unfold validBlock
  by_cases h1 : prevBlock.Hash = block.PrevHash
  · by_cases h2 : digest block = block.Hash
    · by_cases h3 : addInt prevBlock.Position 1 = block.Position
      · simp [h1, h2, h3, validateHash_fst, validateHash_snd]
      · have h3n : ¬ block.Position = addInt prevBlock.Position 1 := fun h => h3 h.symm
        simp [h1, h2, h3, h3n, validateHash_fst, validateHash_snd]
    · have h2n : ¬ block.Hash = digest block := fun h => h2 h.symm
      simp [h1, h2, h2n, validateHash_fst, validateHash_snd]
  · have h1n : ¬ block.PrevHash = prevBlock.Hash := fun h => h1 h.symm
    simp [h1, h1n]

theorem validBlock_snd (block prevBlock : Block) :
    (validBlock block prevBlock).2 =
      if prevBlock.Hash ≠ block.PrevHash then block else { block with Hash := digest block } := by
  unfold validBlock
  by_cases h1 : prevBlock.Hash = block.PrevHash
  · simp only [h1, ne_eq, not_true_eq_false, if_false, validateHash_snd]
    split
    · rfl
    · split <;> rfl
  · simp [h1]

theorem CreateBlock_eq (prevBlock : Block) (transaction : Transaction) (now : String) :
    CreateBlock prevBlock transaction now =
      generateHash ⟨addInt prevBlock.Position 1, transaction, now, "", prevBlock.Hash⟩ := rfl

theorem CreateBlock_hash (prevBlock : Block) (transaction : Transaction) (now : String) :
    (CreateBlock prevBlock transaction now).Hash =
      digest (CreateBlock prevBlock transaction now) := rfl

theorem validBlock_CreateBlock (t : Block) (d : Transaction) (now : String) :
    validBlock (CreateBlock t d now) t = (true, CreateBlock t d now) := by
  apply Prod.ext
  · rw [validBlock_fst]
    simp [CreateBlock_eq, generateHash, digest, digestInput]
  · rw [validBlock_snd]
    simp [CreateBlock_eq, generateHash, digest, digestInput]

theorem commit_CreateBlock (bc : Blockchain) (t : Block) (d : Transaction) (now : String) :
    commit bc (CreateBlock t d now) t = { blocks := bc.blocks ++ [CreateBlock t d now] } := by
  unfold commit
  simp [validBlock_CreateBlock]

theorem AddBlock_of_getLast (bc : Blockchain) (t : Block) (d : Transaction) (now : String)
    (h : bc.blocks.getLast? = some t) :
    AddBlock bc d now = some { blocks := bc.blocks ++ [CreateBlock t d now] } := by
  unfold AddBlock
  simp [h, commit_CreateBlock]

theorem ChainInv_NewBlockchain (now : String) : ChainInv (NewBlockchain now) := by
  refine ⟨by simp [NewBlockchain], by simp [NewBlockchain], ?_, ?_⟩
  · intro b hb
    simp only [NewBlockchain, List.mem_singleton] at hb
    subst hb
    rfl
  · intro i b hb
    cases i with
    | zero =>
        simp only [NewBlockchain, List.getElem?_cons_zero, Option.some.injEq] at hb
        subst hb
        rfl
    | succ i => simp [NewBlockchain] at hb

theorem ChainInv_AddBlock (bc : Blockchain) (d : Transaction) (now : String)
    (h : ChainInv bc) : ∃ bc', AddBlock bc d now = some bc' ∧ ChainInv bc' := by
  obtain ⟨hne, hchain, hself, hpos⟩ := h
  obtain ⟨t, ht⟩ : ∃ t, bc.blocks.getLast? = some t := by
    cases hl : bc.blocks.getLast? with
    | none => exact absurd (List.getLast?_eq_none_iff.1 hl) hne
    | some t => exact ⟨t, rfl⟩
  refine ⟨_, AddBlock_of_getLast bc t d now ht, by simp, ?_, ?_, ?_⟩
  · refine List.Chain'.append hchain (List.chain'_singleton _) ?_
    intro x hx y hy
    rw [ht] at hx
    simp only [Option.mem_def, Option.some.injEq] at hx
    simp only [List.head?_cons, Option.mem_def, Option.some.injEq] at hy
    subst hx hy
    exact ⟨rfl, rfl⟩
  · intro b hb
    simp only [List.mem_append, List.mem_singleton] at hb
    rcases hb with hb | hb
    · exact hself b hb
    · subst hb
      rfl
  · intro i b hb
    rcases Nat.lt_trichotomy i bc.blocks.length with hi | hi | hi
    · rw [List.getElem?_append_left hi] at hb
      exact hpos i b hb
    · subst hi
      simp only [List.getElem?_concat_length, Option.some.injEq] at hb
      subst hb
      have hlen : 0 < bc.blocks.length := List.length_pos.2 hne
      have hlast : bc.blocks[bc.blocks.length - 1]? = some t := by
        rw [← List.getLast?_eq_getElem?]
        exact ht
      have htpos := hpos _ t hlast
      show addInt t.Position 1 = addInt (bc.blocks.length : Int) 1
      rw [htpos]
      have hcast : ((bc.blocks.length - 1 : Nat) : Int) = (bc.blocks.length : Int) - 1 := by
        omega
      rw [hcast]
      unfold addInt
      omega
    · rw [List.getElem?_eq_none (by simp; omega)] at hb
      exact absurd hb (by simp)

theorem foldl_AddBlock_inv (calls : List (Transaction × String)) (bc : Blockchain)
    (h : ChainInv bc) :
    ∃ bc', calls.foldl (fun s call => s.bind (fun bc => AddBlock bc call.1 call.2)) (some bc)
        = some bc' ∧ ChainInv bc' := by
  induction calls generalizing bc with
  | nil => exact ⟨bc, rfl, h⟩
  | cons call rest ih =>
      obtain ⟨bc1, h1, hinv1⟩ := ChainInv_AddBlock bc call.1 call.2 h
      obtain ⟨bc2, h2, hinv2⟩ := ih bc1 hinv1
      refine ⟨bc2, ?_, hinv2⟩
      rw [List.foldl_cons, Option.some_bind, h1]
      exact h2

/-- Every sequence of `AddBlock` calls on a new chain runs without panic and ends in
a chain that satisfies the invariant. -/
theorem chainAfter_inv (now : String) (calls : List (Transaction × String)) :
    ∃ bc, chainAfter now calls = some bc ∧ ChainInv bc :=
  foldl_AddBlock_inv calls (NewBlockchain now) (ChainInv_NewBlockchain now)

theorem chain_get_linked {l : List Block} (h : List.Chain' Linked l) (i : Nat) (p c : Block)
    (hp : l[i]? = some p) (hc : l[i + 1]? = some c) : Linked p c := by
  induction l generalizing i with
  | nil => simp at hp
  | cons a l ih =>
      cases l with
      | nil => simp at hc
      | cons b l =>
          rw [List.chain'_cons] at h
          cases i with
          | zero =>
              simp only [List.getElem?_cons_zero, Option.some.injEq] at hp
              simp only [zero_add, List.getElem?_cons_succ, List.getElem?_cons_zero,
                Option.some.injEq] at hc
              subst hp hc
              exact h.1
          | succ i =>
              simp only [List.getElem?_cons_succ] at hp hc
              exact ih h.2 i hp (by simpa using hc)

theorem validBlockSame_fst (b : Block) : (validBlockSame b).1 = false := by
  unfold validBlockSame
  dsimp only
  split
  · rfl
  · split
    · rfl
    · split
      · rfl
      · rename_i h3
        exact absurd (addInt_one_ne _) h3

theorem validBlockSame_snd (b : Block) :
    (validBlockSame b).2 = if b.Hash ≠ b.PrevHash then b else { b with Hash := digest b } := by
  unfold validBlockSame
  by_cases h1 : b.Hash = b.PrevHash
  · simp only [h1, ne_eq, not_true_eq_false, if_false, validateHash_snd]
    split
    · rfl
    · split <;> rfl
  · simp [h1]

theorem Sha256.sum_length (msg : List Nat) : (Sha256.sum msg).length = 32 := by
  simp [Sha256.sum, Sha256.be32, List.range_succ, List.flatMap]

theorem hexEncodeToString_length (bs : List Nat) :
    (hexEncodeToString bs).length = 2 * bs.length := by
  unfold hexEncodeToString
  show (bs.flatMap (fun b => [hexDigit (b / 16 % 16), hexDigit (b % 16)])).length = 2 * bs.length
  induction bs with
  | nil => rfl
  | cons b bs ih =>
      simp only [List.flatMap_cons, List.length_append, List.length_cons, List.length_nil, ih]
      omega

/-- A digest is sixty-four characters long. -/
theorem digest_length (b : Block) : (digest b).length = 64 := by
  unfold digest
  rw [hexEncodeToString_length, Sha256.sum_length]

theorem digest_ne_empty (b : Block) : digest b ≠ "" := by
  intro h
  have hl := digest_length b
  rw [h] at hl
  exact absurd hl (by decide)

theorem intToString_surrogate (v : Int) (h1 : 0xD800 ≤ v) (h2 : v ≤ 0xDFFF) :
    intToString v = "\uFFFD" := by
  unfold intToString
  rw [if_neg]
  omega

/-! ## The encodings can be read back -/

theorem Char.toNat_valid (c : Char) :
    c.toNat < 0xd800 ∨ (0xdfff < c.toNat ∧ c.toNat < 0x110000) := c.valid

theorem Char.eq_of_toNat_eq {a b : Char} (h : a.toNat = b.toNat) : a = b := by
  rw [← Char.ofNat_toNat a, ← Char.ofNat_toNat b, h]

/-- A code `f` whose words are not empty and none of which begins another one is
injective on sequences. -/
theorem flatMap_injective_of_code {α β : Type} (f : α → List β) (hne : ∀ a, f a ≠ [])
    (hcode : ∀ a b l l', f a ++ l = f b ++ l' → a = b) :
    ∀ s t : List α, s.flatMap f = t.flatMap f → s = t := by
  intro s
  induction s with
  | nil =>
      intro t h
      cases t with
      | nil => rfl
      | cons b t =>
          simp only [List.flatMap_nil, List.flatMap_cons] at h
          have := List.append_eq_nil.1 h.symm
          exact absurd this.1 (hne b)
  | cons a s ih =>
      intro t h
      cases t with
      | nil =>
          simp only [List.flatMap_nil, List.flatMap_cons] at h
          have := List.append_eq_nil.1 h
          exact absurd this.1 (hne a)
      | cons b t =>
          simp only [List.flatMap_cons] at h
          have hab := hcode a b _ _ h
          subst hab
          rw [ih t (List.append_cancel_left h)]

theorem utf8EncodeChar_ne_nil (c : Char) : utf8EncodeChar c ≠ [] := by
  unfold utf8EncodeChar
  dsimp only
  split_ifs <;> simp

theorem utf8EncodeChar_code (a b : Char) (l l' : List Nat)
    (h : utf8EncodeChar a ++ l = utf8EncodeChar b ++ l') : a = b := by
  apply Char.eq_of_toNat_eq
  have ha := Char.toNat_valid a
  have hb := Char.toNat_valid b
  unfold utf8EncodeChar at h
  dsimp only at h
  split_ifs at h <;>
    simp only [List.cons_append, List.nil_append, List.cons.injEq] at h <;> omega

theorem utf8Encode_injective (s t : String) (h : utf8Encode s = utf8Encode t) : s = t := by
  unfold utf8Encode at h
  have := flatMap_injective_of_code utf8EncodeChar utf8EncodeChar_ne_nil utf8EncodeChar_code
    s.data t.data h
  exact String.ext this


theorem hexDigit_toNat : ∀ n < 16, (hexDigit n).toNat = if n < 10 then 48 + n else 87 + n := by
  decide

/-- The code points of the escape of a character, by cases. -/
theorem jsonEscapeChar_codes (c : Char) :
    ((jsonEscapeChar c).map Char.toNat = [92, c.toNat] ∧ (c.toNat = 34 ∨ c.toNat = 92)) ∨
    ((jsonEscapeChar c).map Char.toNat = [92, 98] ∧ c.toNat = 8) ∨
    ((jsonEscapeChar c).map Char.toNat = [92, 102] ∧ c.toNat = 12) ∨
    ((jsonEscapeChar c).map Char.toNat = [92, 110] ∧ c.toNat = 10) ∨
    ((jsonEscapeChar c).map Char.toNat = [92, 114] ∧ c.toNat = 13) ∨
    ((jsonEscapeChar c).map Char.toNat = [92, 116] ∧ c.toNat = 9) ∨
    (∃ x y, (jsonEscapeChar c).map Char.toNat = [92, 117, 48, 48, x, y] ∧ c.toNat < 64 ∧
      (x = 48 + c.toNat / 16) ∧
      ((c.toNat % 16 < 10 ∧ y = 48 + c.toNat % 16) ∨
        (10 ≤ c.toNat % 16 ∧ y = 87 + c.toNat % 16))) ∨
    ((jsonEscapeChar c).map Char.toNat = [92, 117, 50, 48, 50, 48 + c.toNat % 16] ∧
      (c.toNat = 8232 ∨ c.toNat = 8233)) ∨
    ((jsonEscapeChar c).map Char.toNat = [c.toNat] ∧ c.toNat ≠ 34 ∧ c.toNat ≠ 92) := by
  unfold jsonEscapeChar
  dsimp only
  split_ifs with h1 hb hf h2 h3 h4 h5 h6
  · left
    rcases h1 with h1 | h1 <;> subst h1 <;> decide
  · right; left
    subst hb
    decide
  · right; right; left
    subst hf
    decide
  · right; right; right; left
    subst h2
    decide
  · right; right; right; right; left
    subst h3
    decide
  · right; right; right; right; right; left
    subst h4
    decide
  · right; right; right; right; right; right; left
    have hlt : c.toNat < 64 := by
      rcases h5 with h5 | h5 | h5 | h5
      · omega
      · subst h5; decide
      · subst h5; decide
      · subst h5; decide
    refine ⟨_, _, rfl, hlt, ?_, ?_⟩
    · rw [hexDigit_toNat _ (by omega), if_pos (by omega)]
    · rw [hexDigit_toNat _ (by omega)]
      split_ifs with h10
      · exact Or.inl ⟨h10, rfl⟩
      · exact Or.inr ⟨by omega, rfl⟩
  · right; right; right; right; right; right; right; left
    refine ⟨?_, h6⟩
    simp only [List.map_cons, List.map_nil]
    rw [hexDigit_toNat _ (by omega), if_pos (by omega)]
    rfl
  · right; right; right; right; right; right; right; right
    refine ⟨rfl, ?_, ?_⟩
    · intro h
      exact h1 (Or.inl (Char.eq_of_toNat_eq h))
    · intro h
      exact h1 (Or.inr (Char.eq_of_toNat_eq h))

theorem jsonEscapeChar_code (a b : Char) (l l' : List Char)
    (h : jsonEscapeChar a ++ l = jsonEscapeChar b ++ l') : a = b := by
  apply Char.eq_of_toNat_eq
  have h' := congrArg (List.map Char.toNat) h
  rw [List.map_append, List.map_append] at h'
  rcases jsonEscapeChar_codes a with ⟨ea, ha⟩ | ⟨ea, ha⟩ | ⟨ea, ha⟩ | ⟨ea, ha⟩ | ⟨ea, ha⟩ |
      ⟨ea, ha⟩ | ⟨xa, ya, ea, ha⟩ | ⟨ea, ha⟩ | ⟨ea, ha⟩ <;>
    rcases jsonEscapeChar_codes b with ⟨eb, hb⟩ | ⟨eb, hb⟩ | ⟨eb, hb⟩ | ⟨eb, hb⟩ | ⟨eb, hb⟩ |
      ⟨eb, hb⟩ | ⟨xb, yb, eb, hb⟩ | ⟨eb, hb⟩ | ⟨eb, hb⟩ <;>
    rw [ea, eb] at h' <;>
    simp only [List.cons_append, List.nil_append, List.cons.injEq] at h' <;>
    omega

/-- No escape of a character is the escape `\ufffd` of an invalid byte, nor begins
like it. -/
theorem jsonEscapeChar_ne_invalid (c : Char) (l l' : List Char) :
    jsonEscapeChar c ++ l ≠ ['\\', 'u', 'f', 'f', 'f', 'd'] ++ l' := by
  intro h
  have h' := congrArg (List.map Char.toNat) h
  rw [List.map_append, List.map_append] at h'
  have hinv : (['\\', 'u', 'f', 'f', 'f', 'd'] : List Char).map Char.toNat =
      [92, 117, 102, 102, 102, 100] := by decide
  rw [hinv] at h'
  rcases jsonEscapeChar_codes c with ⟨e, hc⟩ | ⟨e, hc⟩ | ⟨e, hc⟩ | ⟨e, hc⟩ | ⟨e, hc⟩ |
      ⟨e, hc⟩ | ⟨x, y, e, hc⟩ | ⟨e, hc⟩ | ⟨e, hc⟩ <;>
    rw [e] at h' <;>
    simp only [List.cons_append, List.nil_append, List.cons.injEq] at h' <;>
    omega

theorem jsonEscapeChar_head (c : Char) :
    ∃ x xs, jsonEscapeChar c = x :: xs ∧ x ≠ '"' := by
  unfold jsonEscapeChar
  dsimp only
  split_ifs with h1 hb hf h2 h3 h4 h5 h6
  · exact ⟨_, _, rfl, by decide⟩
  · exact ⟨_, _, rfl, by decide⟩
  · exact ⟨_, _, rfl, by decide⟩
  · exact ⟨_, _, rfl, by decide⟩
  · exact ⟨_, _, rfl, by decide⟩
  · exact ⟨_, _, rfl, by decide⟩
  · exact ⟨_, _, rfl, by decide⟩
  · exact ⟨_, _, rfl, by decide⟩
  · exact ⟨_, _, rfl, fun h => h1 (Or.inl h)⟩

theorem jsonEscapeRune_code (a b : Option Char) (l l' : List Char)
    (h : jsonEscapeRune a ++ l = jsonEscapeRune b ++ l') : a = b := by
  cases a with
  | none =>
      cases b with
      | none => rfl
      | some c => exact absurd h.symm (jsonEscapeChar_ne_invalid c l' l)
  | some c =>
      cases b with
      | none => exact absurd h (jsonEscapeChar_ne_invalid c l l')
      | some e => rw [jsonEscapeChar_code c e l l' h]

theorem jsonEscapeRune_head (a : Option Char) :
    ∃ x xs, jsonEscapeRune a = x :: xs ∧ x ≠ '"' := by
  cases a with
  | none => exact ⟨_, _, rfl, by decide⟩
  | some c => exact jsonEscapeChar_head c

/-- A code as in `flatMap_injective_of_code`, none of whose words begins with `q`:
a sequence of words followed by `q` can be read back, whatever follows. -/
theorem flatMap_terminated_injective {α β : Type} (f : α → List β) (q : β)
    (hhead : ∀ a, ∃ x xs, f a = x :: xs ∧ x ≠ q)
    (hcode : ∀ a b l l', f a ++ l = f b ++ l' → a = b) :
    ∀ (s t : List α) (r r' : List β),
      s.flatMap f ++ q :: r = t.flatMap f ++ q :: r' → s = t ∧ r = r' := by
  intro s
  induction s with
  | nil =>
      intro t r r' h
      cases t with
      | nil =>
          simp only [List.flatMap_nil, List.nil_append, List.cons.injEq, true_and] at h
          exact ⟨rfl, h⟩
      | cons b t =>
          obtain ⟨x, xs, hx, hxq⟩ := hhead b
          simp only [List.flatMap_nil, List.nil_append, List.flatMap_cons, hx,
            List.cons_append, List.cons.injEq] at h
          exact absurd h.1.symm hxq
  | cons a s ih =>
      intro t r r' h
      cases t with
      | nil =>
          obtain ⟨x, xs, hx, hxq⟩ := hhead a
          simp only [List.flatMap_nil, List.nil_append, List.flatMap_cons, hx,
            List.cons_append, List.cons.injEq] at h
          exact absurd h.1 hxq
      | cons b t =>
          simp only [List.flatMap_cons, List.append_assoc] at h
          have hab := hcode a b _ _ h
          subst hab
          obtain ⟨hst, hr⟩ := ih t r r' (List.append_cancel_left h)
          exact ⟨by rw [hst], hr⟩

/-- A JSON string literal can be read back, rune by rune, from the front of any
text. -/
theorem jsonString_code (s t : GoString) (r r' : List Char)
    (h : jsonString s ++ r = jsonString t ++ r') :
    decodeRunes 0 s = decodeRunes 0 t ∧ r = r' := by
  unfold jsonString at h
  simp only [List.cons_append, List.append_assoc, List.nil_append, List.cons.injEq,
    true_and] at h
  exact flatMap_terminated_injective jsonEscapeRune '"' jsonEscapeRune_head
    jsonEscapeRune_code _ _ r r' h

theorem jsonBool_code (x y : Bool) (r r' : List Char)
    (h : jsonBool x ++ ('\x7d' :: r) = jsonBool y ++ ('\x7d' :: r')) : x = y ∧ r = r' := by
  have ht : "true".data = ['t', 'r', 'u', 'e'] := rfl
  have hf : "false".data = ['f', 'a', 'l', 's', 'e'] := rfl
  cases x <;> cases y <;> simp only [jsonBool, ht, hf, if_true, if_false, Bool.false_eq_true,
    List.cons_append, List.nil_append, List.cons.injEq, true_and] at h
  · exact ⟨rfl, h⟩
  · exact absurd h.1 (by decide)
  · exact absurd h.1 (by decide)
  · exact ⟨rfl, h⟩

/-- The JSON text of a payload can be read back from the front of any text, as far
as `json.Marshal` reads the payload. -/
theorem jsonMarshal_code (d1 d2 : Transaction) (p1 p2 : List Char)
    (h : (jsonMarshal d1).data ++ p1 = (jsonMarshal d2).data ++ p2) :
    payloadRunes d1 = payloadRunes d2 ∧ p1 = p2 := by
  have hclose : "\x7d".data = ['\x7d'] := rfl
  unfold jsonMarshal at h
  simp only [List.append_assoc, hclose, List.cons_append, List.nil_append, List.cons.injEq,
    true_and] at h
  obtain ⟨h1, h⟩ := jsonString_code _ _ _ _ h
  simp only [List.cons.injEq, true_and] at h
  obtain ⟨h2, h⟩ := jsonString_code _ _ _ _ h
  simp only [List.cons.injEq, true_and] at h
  obtain ⟨h3, h⟩ := jsonString_code _ _ _ _ h
  simp only [List.cons.injEq, true_and] at h
  obtain ⟨h4, h⟩ := jsonString_code _ _ _ _ h
  simp only [List.cons.injEq, true_and] at h
  obtain ⟨h5, h⟩ := jsonString_code _ _ _ _ h
  simp only [List.cons.injEq, true_and] at h
  obtain ⟨h6, hp⟩ := jsonBool_code _ _ _ _ h
  refine ⟨?_, hp⟩
  unfold payloadRunes
  rw [h1, h2, h3, h4, h5, h6]

/-- Payloads that `json.Marshal` reads alike have the same JSON text. -/
theorem jsonMarshal_congr (d1 d2 : Transaction) (h : payloadRunes d1 = payloadRunes d2) :
    jsonMarshal d1 = jsonMarshal d2 := by
  unfold payloadRunes at h
  simp only [Prod.mk.injEq, List.cons.injEq, and_true] at h
  obtain ⟨⟨h1, h2, h3, h4, h5⟩, h6⟩ := h
  unfold jsonMarshal jsonString
  rw [h1, h2, h3, h4, h5, h6]

/-! Decoding the UTF-8 encoding of a text gives its characters. -/

theorem decodeRune_utf8EncodeChar (c : Char) (rest : List Nat) :
    decodeRune (utf8EncodeChar c ++ rest) = some (c.toNat, (utf8EncodeChar c).length) := by
  have hc := Char.toNat_valid c
  unfold utf8EncodeChar
  dsimp only
  split_ifs with h1 h2 h3
  · simp [decodeRune, h1]
  · have e1 : ¬ (192 + c.toNat / 64 < 128) := by omega
    have e2 : 194 ≤ 192 + c.toNat / 64 ∧ 192 + c.toNat / 64 ≤ 223 := by omega
    have e3 : 128 ≤ 128 + c.toNat % 64 ∧ 128 + c.toNat % 64 ≤ 191 := by omega
    simp only [List.cons_append, List.nil_append, decodeRune, e1, e2, e3, if_true, if_false,
      and_self, List.length_cons, List.length_nil, Option.some.injEq, Prod.mk.injEq, and_true]
    omega
  · have e1 : ¬ (224 + c.toNat / 4096 < 128) := by omega
    have e2 : ¬ (194 ≤ 224 + c.toNat / 4096 ∧ 224 + c.toNat / 4096 ≤ 223) := by omega
    have e3 : 224 ≤ 224 + c.toNat / 4096 ∧ 224 + c.toNat / 4096 ≤ 239 := by omega
    have e4 : (if 224 + c.toNat / 4096 = 224 then 160 else 128) ≤ 128 + c.toNat / 64 % 64 ∧
        128 + c.toNat / 64 % 64 ≤ (if 224 + c.toNat / 4096 = 237 then 159 else 191) ∧
        128 ≤ 128 + c.toNat % 64 ∧ 128 + c.toNat % 64 ≤ 191 := by
      split_ifs <;> omega
    simp only [List.cons_append, List.nil_append, decodeRune, e1, e2, e3, e4, if_true,
      if_false, and_self, List.length_cons, List.length_nil, Option.some.injEq,
      Prod.mk.injEq, and_true]
    omega
  · have e1 : ¬ (240 + c.toNat / 262144 < 128) := by omega
    have e2 : ¬ (194 ≤ 240 + c.toNat / 262144 ∧ 240 + c.toNat / 262144 ≤ 223) := by omega
    have e3 : ¬ (224 ≤ 240 + c.toNat / 262144 ∧ 240 + c.toNat / 262144 ≤ 239) := by omega
    have e4 : 240 ≤ 240 + c.toNat / 262144 ∧ 240 + c.toNat / 262144 ≤ 244 := by omega
    have e5 : (if 240 + c.toNat / 262144 = 240 then 144 else 128) ≤
          128 + c.toNat / 4096 % 64 ∧
        128 + c.toNat / 4096 % 64 ≤ (if 240 + c.toNat / 262144 = 244 then 143 else 191) ∧
        128 ≤ 128 + c.toNat / 64 % 64 ∧ 128 + c.toNat / 64 % 64 ≤ 191 ∧
        128 ≤ 128 + c.toNat % 64 ∧ 128 + c.toNat % 64 ≤ 191 := by
      split_ifs <;> omega
    simp only [List.cons_append, List.nil_append, decodeRune, e1, e2, e3, e4, e5, if_true,
      if_false, and_self, List.length_cons, List.length_nil, Option.some.injEq,
      Prod.mk.injEq, and_true]
    omega

theorem decodeRunes_skip (tail r : List Nat) :
    decodeRunes tail.length (tail ++ r) = decodeRunes 0 r := by
  induction tail with
  | nil => rfl
  | cons b tail ih =>
      simp only [List.length_cons, List.cons_append, decodeRunes]
      exact ih

theorem decodeRunes_utf8 (l : List Char) :
    decodeRunes 0 (l.flatMap utf8EncodeChar) = l.map some := by
  induction l with
  | nil => rfl
  | cons c l ih =>
      have hdec := decodeRune_utf8EncodeChar c (l.flatMap utf8EncodeChar)
      cases hb : utf8EncodeChar c with
      | nil => exact absurd hb (utf8EncodeChar_ne_nil c)
      | cons b tail =>
          rw [hb, List.cons_append] at hdec
          simp only [List.flatMap_cons, hb, List.cons_append, decodeRunes, hdec,
            List.length_cons, Nat.add_sub_cancel, List.map_cons, Char.ofNat_toNat,
            List.cons.injEq, true_and]
          rw [decodeRunes_skip, ih]

theorem decodeRunes_utf8Encode (t : String) : decodeRunes 0 (utf8Encode t) = t.data.map some :=
  decodeRunes_utf8 t.data

/-- On valid UTF-8 the runes determine the string. -/
theorem decodeRunes_injective_of_utf8 (s t : GoString) (hs : IsUTF8 s) (ht : IsUTF8 t)
    (h : decodeRunes 0 s = decodeRunes 0 t) : s = t := by
  obtain ⟨a, rfl⟩ := hs
  obtain ⟨b, rfl⟩ := ht
  rw [decodeRunes_utf8Encode, decodeRunes_utf8Encode] at h
  have hab : a.data = b.data := List.map_injective_iff.2 (Option.some_injective _) h
  rw [String.ext hab]

/-- A payload of valid UTF-8 strings is determined by what `json.Marshal` reads. -/
theorem payloadRunes_injective_of_text (d1 d2 : Transaction) (h1 : IsTextPayload d1)
    (h2 : IsTextPayload d2) (h : payloadRunes d1 = payloadRunes d2) : d1 = d2 := by
  unfold payloadRunes at h
  simp only [Prod.mk.injEq, List.cons.injEq, and_true] at h
  obtain ⟨⟨e1, e2, e3, e4, e5⟩, e6⟩ := h
  obtain ⟨a1, a2, a3, a4, a5⟩ := h1
  obtain ⟨b1, b2, b3, b4, b5⟩ := h2
  cases d1
  cases d2
  simp only at e1 e2 e3 e4 e5 e6 a1 a2 a3 a4 a5 b1 b2 b3 b4 b5
  rw [decodeRunes_injective_of_utf8 _ _ a1 b1 e1, decodeRunes_injective_of_utf8 _ _ a2 b2 e2,
    decodeRunes_injective_of_utf8 _ _ a3 b3 e3, decodeRunes_injective_of_utf8 _ _ a4 b4 e4,
    decodeRunes_injective_of_utf8 _ _ a5 b5 e5, e6]

/-! The digest input can be read back when the end of `Timestamp` is known. -/

theorem utf8Encode_append (s t : String) :
    utf8Encode (s ++ t) = utf8Encode s ++ utf8Encode t := by
  simp [utf8Encode, String.data_append, List.flatMap_append]

theorem digestInput_data (b : Block) :
    (digestInput b).data =
      (intToString b.Position).data ++
        (b.Timestamp.data ++ ((jsonMarshal b.Data).data ++ b.PrevHash.data)) := by
  unfold digestInput
  simp only [String.data_append, List.append_assoc]

/-- The JSON text of a payload begins with an opening brace. -/
theorem jsonMarshal_data_head (d : Transaction) :
    ∃ r, (jsonMarshal d).data = '\x7b' :: r := by
  unfold jsonMarshal
  exact ⟨_, rfl⟩

theorem append_cons_unique {α : Type} (a : α) :
    ∀ (l1 l2 r1 r2 : List α), a ∉ l1 → a ∉ l2 → l1 ++ a :: r1 = l2 ++ a :: r2 →
      l1 = l2 ∧ r1 = r2 := by
  intro l1
  induction l1 with
  | nil =>
      intro l2 r1 r2 _ h2 h
      cases l2 with
      | nil =>
          simp only [List.nil_append, List.cons.injEq, true_and] at h
          exact ⟨rfl, h⟩
      | cons x l2 =>
          simp only [List.nil_append, List.cons_append, List.cons.injEq] at h
          exact absurd (h.1 ▸ List.mem_cons_self _ _) h2
  | cons x l1 ih =>
      intro l2 r1 r2 h1 h2 h
      cases l2 with
      | nil =>
          simp only [List.nil_append, List.cons_append, List.cons.injEq] at h
          exact absurd (h.1 ▸ List.mem_cons_self _ _) h1
      | cons y l2 =>
          simp only [List.cons_append, List.cons.injEq] at h
          obtain ⟨hl, hr⟩ := ih l2 r1 r2 (fun e => h1 (List.mem_cons_of_mem _ e))
            (fun e => h2 (List.mem_cons_of_mem _ e)) h.2
          exact ⟨by rw [h.1, hl], hr⟩

/-- With the same `Position` and the end of `Timestamp` known, the digest input
gives back `Timestamp`, the payload as `json.Marshal` reads it, and `PrevHash`. -/
theorem digestInput_code (b1 b2 : Block) (hpos : b1.Position = b2.Position)
    (hknown : ('\x7b' ∉ b1.Timestamp.data ∧ '\x7b' ∉ b2.Timestamp.data) ∨
      (utf8Encode b1.Timestamp).length = (utf8Encode b2.Timestamp).length ∨
      (b1.Data = b2.Data ∧ b1.PrevHash = b2.PrevHash))
    (h : utf8Encode (digestInput b1) = utf8Encode (digestInput b2)) :
    b1.Timestamp = b2.Timestamp ∧ payloadRunes b1.Data = payloadRunes b2.Data ∧
      b1.PrevHash = b2.PrevHash := by
  have hd := congrArg String.data (utf8Encode_injective _ _ h)
  rw [digestInput_data, digestInput_data, hpos] at hd
  have hc := List.append_cancel_left hd
  have hts : b1.Timestamp = b2.Timestamp := by
    rcases hknown with ⟨hn1, hn2⟩ | hlen | ⟨hdata, hprev⟩
    · obtain ⟨r1, e1⟩ := jsonMarshal_data_head b1.Data
      obtain ⟨r2, e2⟩ := jsonMarshal_data_head b2.Data
      rw [e1, e2, List.cons_append, List.cons_append] at hc
      exact String.ext (append_cons_unique _ _ _ _ _ hn1 hn2 hc).1
    · have hb := congrArg (fun l => l.flatMap utf8EncodeChar) hc
      simp only [List.flatMap_append] at hb
      exact utf8Encode_injective _ _ (List.append_inj hb hlen).1
    · rw [hdata, hprev] at hc
      exact String.ext (List.append_cancel_right hc)
  rw [hts] at hc
  obtain ⟨hrunes, hp⟩ := jsonMarshal_code _ _ _ _ (List.append_cancel_left hc)
  exact ⟨hts, hrunes, String.ext hp⟩

/-! ## The shape of a digest -/

theorem isLowerHex_hexDigit : ∀ n < 16, isLowerHex (hexDigit n) = true := by
  decide

theorem hexEncodeToString_chars (bs : List Nat) :
    ∀ c ∈ (hexEncodeToString bs).data, isLowerHex c = true := by
  intro c hc
  unfold hexEncodeToString at hc
  simp only [List.mem_flatMap, List.mem_cons, List.mem_singleton, List.not_mem_nil,
    or_false] at hc
  obtain ⟨b, -, hb | hb⟩ := hc
  · rw [hb]
    exact isLowerHex_hexDigit _ (Nat.mod_lt _ (by decide))
  · rw [hb]
    exact isLowerHex_hexDigit _ (Nat.mod_lt _ (by decide))

theorem digest_isHexDigest (b : Block) : IsHexDigest (digest b) :=
  ⟨digest_length b, hexEncodeToString_chars _⟩

theorem AddBlock_length (bc bc' : Blockchain) (d : Transaction) (now : String)
    (h : AddBlock bc d now = some bc') : bc'.blocks.length = bc.blocks.length + 1 := by
  cases hl : bc.blocks.getLast? with
  | none =>
      unfold AddBlock at h
      simp [hl] at h
  | some t =>
      rw [AddBlock_of_getLast bc t d now hl] at h
      simp only [Option.some.injEq] at h
      subst h
      simp

theorem chainAfter_concat (now : String) (calls : List (Transaction × String))
    (call : Transaction × String) :
    chainAfter now (calls ++ [call]) =
      (chainAfter now calls).bind (fun bc => AddBlock bc call.1 call.2) := by
  unfold chainAfter
  rw [List.foldl_append]
  rfl

theorem chainAfter_length (now : String) (calls : List (Transaction × String))
    (bc : Blockchain) (h : chainAfter now calls = some bc) :
    bc.blocks.length = calls.length + 1 := by
  induction calls using List.reverseRecOn generalizing bc with
  | nil =>
      simp only [chainAfter, List.foldl_nil, Option.some.injEq] at h
      subst h
      rfl
  | append_singleton calls call ih =>
      rw [chainAfter_concat] at h
      cases hprev : chainAfter now calls with
      | none => simp [hprev] at h
      | some bc0 =>
          rw [hprev, Option.some_bind] at h
          rw [AddBlock_length bc0 bc call.1 call.2 h, ih bc0 hprev]
          simp

/-! ## Interleaved calls -/

theorem runSchedule_append (s : Interleaved) (a b : List Nat) :
    runSchedule s (a ++ b) = (runSchedule s a).bind (fun s1 => runSchedule s1 b) := by
  induction a generalizing s with
  | nil => rfl
  | cons i a ih =>
      simp only [List.cons_append, runSchedule]
      cases step s i with
      | none => rfl
      | some s1 => exact ih s1

/-- The four steps of one call taken in a row are the call `AddBlock`. -/
theorem runSchedule_call (s : Interleaved) (i : Nat) (d : Transaction) (now : String)
    (h : s.progress[i]? = some (Progress.called d now)) :
    runSchedule s [i, i, i, i] =
      (AddBlock s.bc d now).map
        (fun bc1 => { bc := bc1, progress := s.progress.set i Progress.returned }) := by
  have hi : i < s.progress.length := by
    by_contra hge
    rw [List.getElem?_eq_none (by omega)] at h
    exact absurd h (by simp)
  cases hl : s.bc.blocks.getLast? with
  | none => simp [runSchedule, step, h, stepCall, hl, AddBlock]
  | some t =>
      simp [runSchedule, step, h, stepCall, hl, AddBlock, hi, List.set_set, commit]

/-- Two calls that both read the tail before either appends both commit. -/
theorem runSchedule_same_tail (bc : Blockchain) (t : Block) (d1 d2 : Transaction)
    (now1 now2 : String) (h : bc.blocks.getLast? = some t) :
    runSchedule (startCalls bc [(d1, now1), (d2, now2)]) [0, 1, 0, 1, 0, 1, 0, 1] =
      some { bc := { blocks := bc.blocks ++ [CreateBlock t d1 now1, CreateBlock t d2 now2] },
             progress := [Progress.returned, Progress.returned] } := by
  simp [runSchedule, step, stepCall, startCalls, h, validBlock_CreateBlock]

/-- A call that read the tail before another call committed still commits:
it validates its candidate against the tail it read. -/
theorem runSchedule_stale_tail (bc : Blockchain) (t : Block) (d1 d2 : Transaction)
    (now1 now2 : String) (h : bc.blocks.getLast? = some t) :
    runSchedule (startCalls bc [(d1, now1), (d2, now2)]) [1, 0, 0, 0, 0] =
      some { bc := { blocks := bc.blocks ++ [CreateBlock t d1 now1] },
             progress := [Progress.returned, Progress.tailRead t d2 now2] } ∧
    runSchedule (startCalls bc [(d1, now1), (d2, now2)]) [1, 0, 0, 0, 0, 1, 1, 1] =
      some { bc := { blocks := bc.blocks ++ [CreateBlock t d1 now1, CreateBlock t d2 now2] },
             progress := [Progress.returned, Progress.returned] } := by
  constructor <;> simp [runSchedule, step, stepCall, startCalls, h, validBlock_CreateBlock]

theorem validBlock_stale (t0 : Block) (p q : Transaction) (now1 now2 : String) :
    (validBlock (CreateBlock t0 q now2) (CreateBlock t0 p now1)).1 = false := by
  rw [validBlock_fst, decide_eq_false_iff_not]
  intro hh
  exact addInt_one_ne_succ t0.Position hh.2.1.symm

theorem runSchedule_serial (order : List Nat) (s : Interleaved) (hinv : ChainInv s.bc)
    (hnodup : order.Nodup)
    (hcalled : ∀ i ∈ order, ∃ d now, s.progress[i]? = some (Progress.called d now)) :
    ∃ s1, runSchedule s (serialSchedule order) = some s1 ∧ ChainInv s1.bc ∧
      s1.bc.blocks.length = s.bc.blocks.length + order.length ∧
      s.bc.blocks <+: s1.bc.blocks ∧
      (∀ i ∈ order, s1.progress[i]? = some Progress.returned) ∧
      ∀ i, i ∉ order → s1.progress[i]? = s.progress[i]? := by
  induction order generalizing s with
  | nil => exact ⟨s, rfl, hinv, rfl, List.prefix_refl _, by simp, fun _ _ => rfl⟩
  | cons i rest ih =>
      obtain ⟨d, now, hi⟩ := hcalled i (List.mem_cons_self _ _)
      have hlt : i < s.progress.length := by
        by_contra hge
        rw [List.getElem?_eq_none (by omega)] at hi
        exact absurd hi (by simp)
      obtain ⟨bc1, hadd, hinv1⟩ := ChainInv_AddBlock s.bc d now hinv
      have hlen1 := AddBlock_length s.bc bc1 d now hadd
      have hpre1 : s.bc.blocks <+: bc1.blocks := by
        cases hl : s.bc.blocks.getLast? with
        | none => exact absurd (List.getLast?_eq_none_iff.1 hl) hinv.1
        | some t =>
            rw [AddBlock_of_getLast s.bc t d now hl] at hadd
            simp only [Option.some.injEq] at hadd
            subst hadd
            exact List.prefix_append _ _
      have hnd := List.nodup_cons.1 hnodup
      have hrest : ∀ j ∈ rest, ∃ d now,
          (s.progress.set i Progress.returned)[j]? = some (Progress.called d now) := by
        intro j hj
        have hne : i ≠ j := fun e => hnd.1 (e ▸ hj)
        rw [List.getElem?_set_ne hne]
        exact hcalled j (List.mem_cons_of_mem _ hj)
      obtain ⟨s2, hrun2, hinv2, hlen2, hpre2, hret2, hkeep2⟩ :=
        ih { bc := bc1, progress := s.progress.set i Progress.returned } hinv1 hnd.2 hrest
      refine ⟨s2, ?_, hinv2, ?_, hpre1.trans hpre2, ?_, ?_⟩
      · show runSchedule s ([i, i, i, i] ++ serialSchedule rest) = some s2
        rw [runSchedule_append, runSchedule_call s i d now hi, hadd]
        exact hrun2
      · rw [hlen2]
        simp only [hlen1, List.length_cons]
        omega
      · intro j hj
        rcases List.mem_cons.1 hj with hji | hjr
        · subst hji
          rw [hkeep2 j hnd.1]
          exact List.getElem?_set_self hlt
        · exact hret2 j hjr
      · intro j hj
        have hji : i ≠ j := fun e => hj (e ▸ List.mem_cons_self _ _)
        have hjr : j ∉ rest := fun e => hj (List.mem_cons_of_mem _ e)
        rw [hkeep2 j hjr]
        exact List.getElem?_set_ne hji

/-! ## Properties of the specification -/

/-- C1 (chain linkage): after `NewBlockchain()` and any finite sequence of `AddBlock`
calls, with any payloads and clock readings, the calls all return and every two
adjacent blocks `p`, `c` of `bc.blocks` satisfy `c.PrevHash == p.Hash` and
`c.Position == p.Position + 1` (Go addition); as long as the position of `p` is
below the largest `int`, the sum is the sum of integers. -/
theorem chain_linkage (now : String) (calls : List (Transaction × String)) :
    ∃ bc, chainAfter now calls = some bc ∧
      ∀ (i : Nat) (p c : Block), bc.blocks[i]? = some p → bc.blocks[i + 1]? = some c →
        c.PrevHash = p.Hash ∧ c.Position = addInt p.Position 1 ∧
        (p.Position < 9223372036854775807 → c.Position = p.Position + 1) := by
  obtain ⟨bc, hrun, -, hchain, -, hpos⟩ := chainAfter_inv now calls
  refine ⟨bc, hrun, ?_⟩
  intro i p c hp hc
  obtain ⟨h1, h2⟩ := chain_get_linked hchain i p c hp hc
  refine ⟨h1, h2, ?_⟩
  intro hlt
  have hpi := hpos i p hp
  rw [h2]
  rw [hpi] at hlt ⊢
  unfold addInt at hlt ⊢
  omega

/-- C2 (self-consistency): after `NewBlockchain()` and any finite sequence of
`AddBlock` calls, every block of `bc.blocks`, genesis included, has its `Hash` equal
to the digest recomputed from its `Position`, `Timestamp`, `Data` and `PrevHash`:
`b.validateHash(b.Hash)` returns true. -/
theorem chain_self_consistent (now : String) (calls : List (Transaction × String)) :
    ∃ bc, chainAfter now calls = some bc ∧
      ∀ b ∈ bc.blocks, b.Hash = digest b ∧ (validateHash b b.Hash).1 = true := by
  obtain ⟨bc, hrun, -, -, hself, -⟩ := chainAfter_inv now calls
  refine ⟨bc, hrun, ?_⟩
  intro b hb
  refine ⟨hself b hb, ?_⟩
  rw [validateHash_fst]
  exact decide_eq_true (hself b hb).symm

/-- C3 (append postcondition): on a chain whose last block is `t`, `AddBlock(d)`
returns with `bc.blocks` extended by exactly one block `n`, where
`n.Position == t.Position + 1`, `n.PrevHash == t.Hash`, `n.Data == d`, `n.Timestamp`
is the clock reading and `n.Hash` is the digest of the fields of `n`; the candidate
`CreateBlock(t, d)` passes `validBlock` against `t`. -/
theorem AddBlock_postcondition (bc : Blockchain) (t : Block) (d : Transaction) (now : String)
    (h : bc.blocks.getLast? = some t) :
    ∃ n, AddBlock bc d now = some { blocks := bc.blocks ++ [n] } ∧
      (bc.blocks ++ [n]).length = bc.blocks.length + 1 ∧
      n.Position = addInt t.Position 1 ∧ n.PrevHash = t.Hash ∧ n.Data = d ∧
      n.Timestamp = now ∧ n.Hash = digest n ∧
      (validBlock (CreateBlock t d now) t).1 = true :=
  ⟨CreateBlock t d now, AddBlock_of_getLast bc t d now h, by simp, rfl, rfl, rfl, rfl, rfl,
    by rw [validBlock_CreateBlock]⟩

theorem AddBlock_postcondition_witness :
    (NewBlockchain "t0").blocks.getLast? = some (GenesisBlock "t0") ∧
    ∃ n, AddBlock (NewBlockchain "t0") ⟨"w1", "", "", "k", "v", false⟩ "t1"
        = some { blocks := (NewBlockchain "t0").blocks ++ [n] } ∧
      ((NewBlockchain "t0").blocks ++ [n]).length = (NewBlockchain "t0").blocks.length + 1 ∧
      n.Position = addInt (GenesisBlock "t0").Position 1 ∧
      n.PrevHash = (GenesisBlock "t0").Hash ∧ n.Data = ⟨"w1", "", "", "k", "v", false⟩ ∧
      n.Timestamp = "t1" ∧ n.Hash = digest n ∧
      (validBlock (CreateBlock (GenesisBlock "t0") ⟨"w1", "", "", "k", "v", false⟩ "t1")
        (GenesisBlock "t0")).1 = true :=
  ⟨rfl, AddBlock_postcondition (NewBlockchain "t0") (GenesisBlock "t0")
    ⟨"w1", "", "", "k", "v", false⟩ "t1" rfl⟩

/-- C4 (append-only, rejection leaves the state unchanged): on a non-empty chain
`AddBlock` returns, and the block sequence before the call is an initial segment
of the sequence after it, block for block in all five fields; if the candidate
fails `validBlock`, the sequence after the call is the sequence before it.  The
guarded append taken alone has both properties for every candidate and every
`prevBlock`. -/
theorem AddBlock_append_only (bc : Blockchain) (d : Transaction) (now : String)
    (h : bc.blocks ≠ []) :
    ∃ bc', AddBlock bc d now = some bc' ∧ bc.blocks <+: bc'.blocks ∧
      (∀ (i : Nat) (b : Block), bc.blocks[i]? = some b → bc'.blocks[i]? = some b) ∧
      (∀ t, bc.blocks.getLast? = some t → (validBlock (CreateBlock t d now) t).1 = false →
        bc'.blocks = bc.blocks) ∧
      (∀ block prevBlock : Block, bc.blocks <+: (commit bc block prevBlock).blocks ∧
        ((validBlock block prevBlock).1 = false → commit bc block prevBlock = bc)) := by
  obtain ⟨t, ht⟩ : ∃ t, bc.blocks.getLast? = some t := by
    cases hl : bc.blocks.getLast? with
    | none => exact absurd (List.getLast?_eq_none_iff.1 hl) h
    | some t => exact ⟨t, rfl⟩
  refine ⟨_, AddBlock_of_getLast bc t d now ht, List.prefix_append _ _, ?_, ?_, ?_⟩
  · intro i b hb
    have hi : i < bc.blocks.length := by
      by_contra hge
      rw [List.getElem?_eq_none (by omega)] at hb
      exact absurd hb (by simp)
    show (bc.blocks ++ [CreateBlock t d now])[i]? = some b
    rw [List.getElem?_append_left hi]
    exact hb
  · intro t1 _ hfalse
    rw [validBlock_CreateBlock] at hfalse
    exact absurd hfalse (by simp)
  · intro block prevBlock
    unfold commit
    constructor
    · by_cases hv : (validBlock block prevBlock).1 = true
      · simp [hv]
      · simp [hv]
    · intro hfalse
      simp [hfalse]

theorem AddBlock_append_only_witness :
    (NewBlockchain "t0").blocks ≠ [] ∧
    ∃ bc', AddBlock (NewBlockchain "t0") ⟨"w1", "", "", "k", "v", false⟩ "t1" = some bc' ∧
      (NewBlockchain "t0").blocks <+: bc'.blocks ∧
      (∀ (i : Nat) (b : Block),
        (NewBlockchain "t0").blocks[i]? = some b → bc'.blocks[i]? = some b) ∧
      (∀ t, (NewBlockchain "t0").blocks.getLast? = some t →
        (validBlock (CreateBlock t ⟨"w1", "", "", "k", "v", false⟩ "t1") t).1 = false →
        bc'.blocks = (NewBlockchain "t0").blocks) ∧
      (∀ block prevBlock : Block,
        (NewBlockchain "t0").blocks <+: (commit (NewBlockchain "t0") block prevBlock).blocks ∧
        ((validBlock block prevBlock).1 = false →
          commit (NewBlockchain "t0") block prevBlock = NewBlockchain "t0")) :=
  ⟨List.cons_ne_nil _ _, AddBlock_append_only (NewBlockchain "t0")
    ⟨"w1", "", "", "k", "v", false⟩ "t1" (List.cons_ne_nil _ _)⟩

/-- C5, refuted as stated: the genesis block of `NewBlockchain()` does not have
`Position` 0. -/
theorem genesis_position_zero_fails :
    ¬ ∃ g, (NewBlockchain "2020-01-01 00:00:00 +0000 UTC").blocks = [g] ∧ g.Position = 0 ∧
      g.PrevHash = "" ∧ g.Data = ⟨"", "", "", "", "", true⟩ := by
  rintro ⟨g, hg, hpos, -, -⟩
  simp only [NewBlockchain, List.cons.injEq, and_true] at hg
  subst hg
  exact absurd hpos (by decide)

/-- C5 (genesis), amended: `NewBlockchain()` returns a ledger holding exactly one
block, the genesis block `CreateBlock(&Block{}, Transaction{IsGenesis: true})`,
whose `Position` is 1 (one more than the `Position` 0 of the zero block), whose
`PrevHash` is the empty string, whose `Data` has `IsGenesis == true` and every other
field empty, whose `Timestamp` is the clock reading and whose `Hash` is its digest. -/
theorem NewBlockchain_genesis (now : String) :
    (NewBlockchain now).blocks = [GenesisBlock now] ∧
    (GenesisBlock now).Position = 1 ∧ (GenesisBlock now).PrevHash = "" ∧
    (GenesisBlock now).Data = ⟨"", "", "", "", "", true⟩ ∧
    (GenesisBlock now).Timestamp = now ∧
    (GenesisBlock now).Hash = digest (GenesisBlock now) :=
  ⟨rfl, show addInt 0 1 = 1 by decide, rfl, rfl, rfl, rfl⟩

/-- C6 (validation characterisation): `validBlock(block, prevBlock)` returns true if
and only if `block.PrevHash == prevBlock.Hash`, `block.Position == prevBlock.Position + 1`
and the `Hash` stored in `block` before the call equals the digest recomputed from
`Position`, `Timestamp`, `Data` and `PrevHash`; failing any one of the three gives
false whatever the others.  The same holds when both arguments are the same block
(the result is then always false). -/
theorem validBlock_iff (block prevBlock : Block) :
    ((validBlock block prevBlock).1 = true ↔
      (block.PrevHash = prevBlock.Hash ∧ block.Position = addInt prevBlock.Position 1 ∧
        block.Hash = digest block)) ∧
    (block.PrevHash ≠ prevBlock.Hash → (validBlock block prevBlock).1 = false) ∧
    (block.Position ≠ addInt prevBlock.Position 1 → (validBlock block prevBlock).1 = false) ∧
    (block.Hash ≠ digest block → (validBlock block prevBlock).1 = false) ∧
    ((validBlockSame block).1 = true ↔
      (block.PrevHash = block.Hash ∧ block.Position = addInt block.Position 1 ∧
        block.Hash = digest block)) := by
  refine ⟨?_, ?_, ?_, ?_, ?_⟩
  · rw [validBlock_fst, decide_eq_true_iff]
  · intro h
    rw [validBlock_fst, decide_eq_false_iff_not]
    exact fun hh => h hh.1
  · intro h
    rw [validBlock_fst, decide_eq_false_iff_not]
    exact fun hh => h hh.2.1
  · intro h
    rw [validBlock_fst, decide_eq_false_iff_not]
    exact fun hh => h hh.2.2
  · rw [validBlockSame_fst]
    constructor
    · intro h
      exact absurd h (by simp)
    · intro h
      exact absurd h.2.1.symm (addInt_one_ne _)

/-- C7 (tamper detection), the code at the failing input: a block built by
`CreateBlock` at `Position` 55296 whose `Position` is then changed to 55297 still
passes `validateHash` with its stored `Hash`, because `string(b.Position)` is the
same string for every position in the surrogate range. -/
theorem tampered_position_passes :
    blockAtD800.Position = 55296 ∧
    ({ blockAtD800 with Position := 55297 } : Block) ≠ blockAtD800 ∧
    (validateHash { blockAtD800 with Position := 55297 }
      ({ blockAtD800 with Position := 55297 } : Block).Hash).1 = true := by
  refine ⟨by decide, ?_, ?_⟩
  · intro h
    have hp := congrArg Block.Position h
    exact absurd hp (by decide)
  · rw [validateHash_fst]
    apply decide_eq_true
    show digest { blockAtD800 with Position := 55297 } = digest blockAtD800
    apply digest_congr
    show intToString 55297 ++ _ ++ _ ++ _ = intToString (addInt 55295 1) ++ _ ++ _ ++ _
    rw [intToString_surrogate 55297 (by decide) (by decide),
      intToString_surrogate (addInt 55295 1) (by decide) (by decide)]

/-- C8, refuted as stated, in two ways.  Two blocks with different `Timestamp` and
different `PrevHash` have the same digest input, because the fields are not
delimited; two blocks whose payloads differ in an invalid UTF-8 byte (`a\xffb` and
`a\xfeb`) have the same digest input, because `json.Marshal` writes every such byte
as `\ufffd`.  The digests are the same as well. -/
theorem digestInput_not_injective :
    (jsonInPrevHash.Timestamp ≠ jsonInTimestamp.Timestamp ∧
      jsonInPrevHash.PrevHash ≠ jsonInTimestamp.PrevHash ∧
      utf8Encode (digestInput jsonInPrevHash) = utf8Encode (digestInput jsonInTimestamp) ∧
      digest jsonInPrevHash = digest jsonInTimestamp) ∧
    ((invalidByteBlock 255).Data ≠ (invalidByteBlock 254).Data ∧
      utf8Encode (digestInput (invalidByteBlock 255)) =
        utf8Encode (digestInput (invalidByteBlock 254)) ∧
      digest (invalidByteBlock 255) = digest (invalidByteBlock 254)) := by
  have hin : digestInput jsonInPrevHash = digestInput jsonInTimestamp := by
    simp [digestInput, jsonInPrevHash, jsonInTimestamp]
  have hne : jsonMarshal samplePayload ≠ "" := by
    intro h
    have hd := congrArg String.data h
    simp [jsonMarshal] at hd
  have hbytes : digestInput (invalidByteBlock 255) = digestInput (invalidByteBlock 254) := by
    have hj : jsonMarshal (invalidByteBlock 255).Data = jsonMarshal (invalidByteBlock 254).Data :=
      jsonMarshal_congr _ _ (by decide)
    unfold digestInput
    rw [hj]
    rfl
  exact ⟨⟨fun h => hne h.symm, hne, congrArg utf8Encode hin, digest_congr hin⟩,
    by decide, congrArg utf8Encode hbytes, digest_congr hbytes⟩

/-- C8 (digest input), amended: the bytes fed to SHA-256 are the bare concatenation
`string(Position) + Timestamp + JSON(Data) + PrevHash`, in which the end of
`Timestamp` is not marked and in which every invalid UTF-8 byte of the payload is
written alike.  Two blocks with the same `Position` have different digest inputs
whenever the end of `Timestamp` is known (neither `Timestamp` holds an opening
brace, as no clock reading does, or both have the same length in bytes, or `Data`
and `PrevHash` are the same) and the blocks differ in `Timestamp`, in `PrevHash`, or
in `Data` as `json.Marshal` reads it; the last is the case for any two different
payloads of valid UTF-8 strings. -/
theorem digestInput_distinct (b1 b2 : Block) (hpos : b1.Position = b2.Position)
    (hknown : ('\x7b' ∉ b1.Timestamp.data ∧ '\x7b' ∉ b2.Timestamp.data) ∨
      (utf8Encode b1.Timestamp).length = (utf8Encode b2.Timestamp).length ∨
      (b1.Data = b2.Data ∧ b1.PrevHash = b2.PrevHash))
    (hdiff : b1.Timestamp ≠ b2.Timestamp ∨ b1.PrevHash ≠ b2.PrevHash ∨
      payloadRunes b1.Data ≠ payloadRunes b2.Data ∨
      (b1.Data ≠ b2.Data ∧ IsTextPayload b1.Data ∧ IsTextPayload b2.Data)) :
    utf8Encode (digestInput b1) ≠ utf8Encode (digestInput b2) := by
  intro h
  obtain ⟨hts, hrunes, hprev⟩ := digestInput_code b1 b2 hpos hknown h
  rcases hdiff with hne | hne | hne | ⟨hne, ht1, ht2⟩
  · exact hne hts
  · exact hne hprev
  · exact hne hrunes
  · exact hne (payloadRunes_injective_of_text _ _ ht1 ht2 hrunes)

theorem digestInput_distinct_witness :
    (sampleBlock "penicillin").Position = (sampleBlock "latex").Position ∧
    (('\x7b' ∉ (sampleBlock "penicillin").Timestamp.data ∧
        '\x7b' ∉ (sampleBlock "latex").Timestamp.data) ∨
      (utf8Encode (sampleBlock "penicillin").Timestamp).length =
        (utf8Encode (sampleBlock "latex").Timestamp).length ∨
      ((sampleBlock "penicillin").Data = (sampleBlock "latex").Data ∧
        (sampleBlock "penicillin").PrevHash = (sampleBlock "latex").PrevHash)) ∧
    ((sampleBlock "penicillin").Timestamp ≠ (sampleBlock "latex").Timestamp ∨
      (sampleBlock "penicillin").PrevHash ≠ (sampleBlock "latex").PrevHash ∨
      payloadRunes (sampleBlock "penicillin").Data ≠ payloadRunes (sampleBlock "latex").Data ∨
      ((sampleBlock "penicillin").Data ≠ (sampleBlock "latex").Data ∧
        IsTextPayload (sampleBlock "penicillin").Data ∧
        IsTextPayload (sampleBlock "latex").Data)) ∧
    utf8Encode (digestInput (sampleBlock "penicillin")) ≠
      utf8Encode (digestInput (sampleBlock "latex")) :=
  ⟨rfl, Or.inl ⟨by decide, by decide⟩,
    Or.inr (Or.inr (Or.inr ⟨by decide,
      ⟨⟨"w1", rfl⟩, ⟨"u1", rfl⟩, ⟨"doctor", rfl⟩, ⟨"allergies", rfl⟩, ⟨"penicillin", rfl⟩⟩,
      ⟨⟨"w1", rfl⟩, ⟨"u1", rfl⟩, ⟨"doctor", rfl⟩, ⟨"allergies", rfl⟩, ⟨"latex", rfl⟩⟩⟩)),
    digestInput_distinct (sampleBlock "penicillin") (sampleBlock "latex") rfl
      (Or.inl ⟨by decide, by decide⟩)
      (Or.inr (Or.inr (Or.inr ⟨by decide,
        ⟨⟨"w1", rfl⟩, ⟨"u1", rfl⟩, ⟨"doctor", rfl⟩, ⟨"allergies", rfl⟩, ⟨"penicillin", rfl⟩⟩,
        ⟨⟨"w1", rfl⟩, ⟨"u1", rfl⟩, ⟨"doctor", rfl⟩, ⟨"allergies", rfl⟩, ⟨"latex", rfl⟩⟩⟩)))⟩

/-- C9, refuted as stated: `validateHash` and `validBlock` change the `Hash` of the
zero block `Block{}`. -/
theorem validation_writes_hash :
    (validateHash Block.zero "").2.Hash ≠ Block.zero.Hash ∧
    (validBlock Block.zero Block.zero).2.Hash ≠ Block.zero.Hash := by
  constructor
  · rw [validateHash_snd]
    exact digest_ne_empty _
  · rw [validBlock_snd]
    exact digest_ne_empty _

/-- C9 (frame of validation), amended: `validateHash(h)` leaves `Position`,
`Timestamp`, `Data` and `PrevHash` of its receiver as they were and overwrites `Hash`
with the recomputed digest, so the block is unchanged exactly when its `Hash` already
was its digest; `validBlock(block, prevBlock)` writes nothing when the linkage check
`prevBlock.Hash == block.PrevHash` fails and otherwise overwrites `block.Hash` in the
same way, so `block` is unchanged whenever `validBlock` returns true; `prevBlock` is
only read, and when both arguments are the same block it is that block's `Hash`
which is overwritten. -/
theorem validation_frame (block prevBlock : Block) (h : String) :
    (validateHash block h).2 = { block with Hash := digest block } ∧
    ((validateHash block h).2 = block ↔ block.Hash = digest block) ∧
    (validBlock block prevBlock).2 =
      (if prevBlock.Hash ≠ block.PrevHash then block else { block with Hash := digest block }) ∧
    ((validBlock block prevBlock).1 = true → (validBlock block prevBlock).2 = block) ∧
    (validBlockSame block).2 =
      (if block.Hash ≠ block.PrevHash then block else { block with Hash := digest block }) := by
  refine ⟨validateHash_snd block h, ?_, validBlock_snd block prevBlock, ?_,
    validBlockSame_snd block⟩
  · rw [validateHash_snd]
    constructor
    · intro heq
      have hh := congrArg Block.Hash heq
      exact hh.symm
    · intro heq
      cases block
      simp only at heq
      simp only [Block.mk.injEq, true_and, and_true]
      exact heq.symm
  · intro hv
    rw [validBlock_fst, decide_eq_true_iff] at hv
    rw [validBlock_snd, if_neg (by simp [hv.1])]
    cases block
    simp only [Block.mk.injEq, true_and, and_true]
    exact hv.2.2.symm

/-- C10, refuted as stated: on the new chain, the call that read the genesis block
as tail before the other call committed builds its candidate from that stale tail,
passes `validBlock` against it and appends: the chain is extended by the stale
candidate, although `validBlock` of this candidate against the current tail is
false. -/
theorem stale_tail_append_commits :
    runSchedule (startCalls (NewBlockchain "t0") [(samplePayload, "t1"), (otherPayload, "t2")])
        [1, 0, 0, 0, 0] =
      some { bc := { blocks := [GenesisBlock "t0",
                                 CreateBlock (GenesisBlock "t0") samplePayload "t1"] },
             progress := [Progress.returned,
                          Progress.tailRead (GenesisBlock "t0") otherPayload "t2"] } ∧
    runSchedule (startCalls (NewBlockchain "t0") [(samplePayload, "t1"), (otherPayload, "t2")])
        [1, 0, 0, 0, 0, 1, 1, 1] =
      some { bc := { blocks := [GenesisBlock "t0",
                                 CreateBlock (GenesisBlock "t0") samplePayload "t1",
                                 CreateBlock (GenesisBlock "t0") otherPayload "t2"] },
             progress := [Progress.returned, Progress.returned] } ∧
    (validBlock (CreateBlock (GenesisBlock "t0") otherPayload "t2")
      (CreateBlock (GenesisBlock "t0") samplePayload "t1")).1 = false :=
  ⟨(runSchedule_stale_tail (NewBlockchain "t0") (GenesisBlock "t0") samplePayload otherPayload
      "t1" "t2" rfl).1,
    (runSchedule_stale_tail (NewBlockchain "t0") (GenesisBlock "t0") samplePayload otherPayload
      "t1" "t2" rfl).2,
    validBlock_stale _ _ _ _ _⟩

/-- C10 (stale tail), amended: for every block `t0`, payloads `p`, `q` and clock
readings, the candidate `CreateBlock(t0, q)` built from the stale tail `t0` is
rejected by `validBlock` against the current tail `t1 = CreateBlock(t0, p)`, and
accepted against `t0`.  `AddBlock` validates its candidate against the tail it read
itself, never against the current tail: a second append that read the tail `t0`
before the first append committed `t1` passes the validation and extends the chain
behind `t1`. -/
theorem stale_tail_validation (t0 : Block) (p q : Transaction) (now1 now2 : String) :
    (validBlock (CreateBlock t0 q now2) (CreateBlock t0 p now1)).1 = false ∧
    (validBlock (CreateBlock t0 q now2) t0).1 = true ∧
    ∀ bc : Blockchain, bc.blocks.getLast? = some t0 →
      runSchedule (startCalls bc [(p, now1), (q, now2)]) [1, 0, 0, 0, 0] =
        some { bc := { blocks := bc.blocks ++ [CreateBlock t0 p now1] },
               progress := [Progress.returned, Progress.tailRead t0 q now2] } ∧
      runSchedule (startCalls bc [(p, now1), (q, now2)]) [1, 0, 0, 0, 0, 1, 1, 1] =
        some { bc := { blocks := bc.blocks ++ [CreateBlock t0 p now1, CreateBlock t0 q now2] },
               progress := [Progress.returned, Progress.returned] } := by
  refine ⟨validBlock_stale t0 p q now1 now2, by rw [validBlock_CreateBlock], ?_⟩
  intro bc h
  exact runSchedule_stale_tail bc t0 p q now1 now2 h

/-- C11 (hash determinism): the `Hash` written by `generateHash` is a function of
`Position`, `Timestamp`, `Data` and `PrevHash` only: two blocks that agree on these
four fields are left with the same `Hash`, whatever their `Hash` fields held before,
and calling `generateHash` twice on a block gives the same block, hence the same
`Hash`, as calling it once. -/
theorem generateHash_deterministic (b c : Block) (hpos : b.Position = c.Position)
    (hts : b.Timestamp = c.Timestamp) (hdata : b.Data = c.Data)
    (hprev : b.PrevHash = c.PrevHash) :
    (generateHash b).Hash = (generateHash c).Hash ∧
    generateHash (generateHash b) = generateHash b ∧
    (generateHash (generateHash b)).Hash = (generateHash b).Hash := by
  refine ⟨?_, rfl, rfl⟩
  show digest b = digest c
  apply digest_congr
  unfold digestInput
  rw [hpos, hts, hdata, hprev]

theorem generateHash_deterministic_witness :
    (sampleBlock "latex").Position = ({ sampleBlock "latex" with Hash := "00ff" } : Block).Position ∧
    (sampleBlock "latex").Timestamp =
      ({ sampleBlock "latex" with Hash := "00ff" } : Block).Timestamp ∧
    (sampleBlock "latex").Data = ({ sampleBlock "latex" with Hash := "00ff" } : Block).Data ∧
    (sampleBlock "latex").PrevHash =
      ({ sampleBlock "latex" with Hash := "00ff" } : Block).PrevHash ∧
    (sampleBlock "latex").Hash ≠ ({ sampleBlock "latex" with Hash := "00ff" } : Block).Hash ∧
    (generateHash (sampleBlock "latex")).Hash =
      (generateHash { sampleBlock "latex" with Hash := "00ff" }).Hash ∧
    generateHash (generateHash (sampleBlock "latex")) = generateHash (sampleBlock "latex") ∧
    (generateHash (generateHash (sampleBlock "latex"))).Hash =
      (generateHash (sampleBlock "latex")).Hash :=
  ⟨rfl, rfl, rfl, rfl, by decide, generateHash_deterministic (sampleBlock "latex")
    { sampleBlock "latex" with Hash := "00ff" } rfl rfl rfl rfl⟩

/-- C12, refuted as stated: two `AddBlock` calls on the new chain (height 1) whose
steps alternate both read the genesis block as tail, both pass validation against
it and both append; the final chain has height 3 and two blocks at `Position` 2. -/
theorem interleaved_calls_same_position :
    ∃ s, runSchedule
          (startCalls (NewBlockchain "t0") [(samplePayload, "t1"), (otherPayload, "t2")])
          [0, 1, 0, 1, 0, 1, 0, 1] = some s ∧
      s.progress = [Progress.returned, Progress.returned] ∧
      s.bc.blocks.map Block.Position = [1, 2, 2] ∧
      s.bc.blocks.map Block.Data =
        [⟨"", "", "", "", "", true⟩, samplePayload, otherPayload] ∧
      s.bc.blocks.map Block.PrevHash =
        ["", (GenesisBlock "t0").Hash, (GenesisBlock "t0").Hash] :=
  ⟨_, runSchedule_same_tail (NewBlockchain "t0") (GenesisBlock "t0") samplePayload otherPayload
    "t1" "t2" rfl, rfl, by decide, rfl, rfl⟩

/-- C12 (appends), amended: `AddBlock` takes no lock.  `N` calls that run one after
the other, in any order, each taking its four steps (read tail, build candidate,
validate, append) without another call in between, on a chain of height `H` reached
from `NewBlockchain()`, all return and leave a chain of height `H + N` that extends
the old one, in which adjacent blocks are linked (no gaps) and, up to `2^64` blocks,
no two blocks have the same `Position`.  When two calls alternate their steps, both
read the same tail and both commit a block on it. -/
theorem serial_calls_extend_chain (now0 : String) (earlier calls : List (Transaction × String))
    (bc : Blockchain) (order : List Nat) (hreach : chainAfter now0 earlier = some bc)
    (horder : order.Perm (List.range calls.length)) :
    (∃ s, runSchedule (startCalls bc calls) (serialSchedule order) = some s ∧
      (∀ i, i < calls.length → s.progress[i]? = some Progress.returned) ∧
      s.bc.blocks.length = bc.blocks.length + calls.length ∧
      bc.blocks <+: s.bc.blocks ∧
      (∀ (i : Nat) (p c : Block), s.bc.blocks[i]? = some p → s.bc.blocks[i + 1]? = some c →
        c.PrevHash = p.Hash ∧ c.Position = addInt p.Position 1) ∧
      (s.bc.blocks.length ≤ 18446744073709551616 →
        ∀ (i j : Nat) (b1 b2 : Block), i < j → s.bc.blocks[i]? = some b1 →
          s.bc.blocks[j]? = some b2 → b1.Position ≠ b2.Position)) ∧
    (∀ (t : Block) (d1 d2 : Transaction) (now1 now2 : String), bc.blocks.getLast? = some t →
      runSchedule (startCalls bc [(d1, now1), (d2, now2)]) [0, 1, 0, 1, 0, 1, 0, 1] =
        some { bc := { blocks := bc.blocks ++ [CreateBlock t d1 now1, CreateBlock t d2 now2] },
               progress := [Progress.returned, Progress.returned] }) := by
  have hinv : ChainInv bc := by
    obtain ⟨bc0, h0, hinv0⟩ := chainAfter_inv now0 earlier
    rw [hreach, Option.some.injEq] at h0
    rw [h0]
    exact hinv0
  have hmem : ∀ i, i ∈ order ↔ i < calls.length := by
    intro i
    rw [horder.mem_iff, List.mem_range]
  have hnodup : order.Nodup := (horder.nodup_iff).2 (List.nodup_range _)
  have hlen : order.length = calls.length := by
    rw [horder.length_eq, List.length_range]
  have hcalled : ∀ i ∈ order, ∃ d now,
      (startCalls bc calls).progress[i]? = some (Progress.called d now) := by
    intro i hi
    have hlt := (hmem i).1 hi
    refine ⟨(calls[i]).1, (calls[i]).2, ?_⟩
    simp [startCalls, List.getElem?_eq_getElem hlt]
  obtain ⟨s, hrun, hinvs, hlens, hpre, hret, -⟩ :=
    runSchedule_serial order (startCalls bc calls) hinv hnodup hcalled
  refine ⟨⟨s, hrun, fun i hi => hret i ((hmem i).2 hi), ?_, hpre, ?_, ?_⟩, ?_⟩
  · rw [hlens, hlen]
    rfl
  · intro i p c hp hc
    exact chain_get_linked hinvs.2.1 i p c hp hc
  · intro hbound i j b1 b2 hij h1 h2
    have hj : j < s.bc.blocks.length := by
      by_contra hge
      rw [List.getElem?_eq_none (by omega)] at h2
      exact absurd h2 (by simp)
    rw [hinvs.2.2.2 i b1 h1, hinvs.2.2.2 j b2 h2]
    unfold addInt
    omega
  · intro t d1 d2 now1 now2 ht
    exact runSchedule_same_tail bc t d1 d2 now1 now2 ht

theorem serial_calls_extend_chain_witness :
    chainAfter "t0" [] = some (NewBlockchain "t0") ∧
    List.Perm [1, 0] (List.range [(samplePayload, "t1"), (otherPayload, "t2")].length) ∧
    ((∃ s, runSchedule
          (startCalls (NewBlockchain "t0") [(samplePayload, "t1"), (otherPayload, "t2")])
          (serialSchedule [1, 0]) = some s ∧
      (∀ i, i < [(samplePayload, "t1"), (otherPayload, "t2")].length →
        s.progress[i]? = some Progress.returned) ∧
      s.bc.blocks.length = (NewBlockchain "t0").blocks.length +
        [(samplePayload, "t1"), (otherPayload, "t2")].length ∧
      (NewBlockchain "t0").blocks <+: s.bc.blocks ∧
      (∀ (i : Nat) (p c : Block), s.bc.blocks[i]? = some p → s.bc.blocks[i + 1]? = some c →
        c.PrevHash = p.Hash ∧ c.Position = addInt p.Position 1) ∧
      (s.bc.blocks.length ≤ 18446744073709551616 →
        ∀ (i j : Nat) (b1 b2 : Block), i < j → s.bc.blocks[i]? = some b1 →
          s.bc.blocks[j]? = some b2 → b1.Position ≠ b2.Position)) ∧
    (∀ (t : Block) (d1 d2 : Transaction) (now1 now2 : String),
      (NewBlockchain "t0").blocks.getLast? = some t →
      runSchedule (startCalls (NewBlockchain "t0") [(d1, now1), (d2, now2)])
          [0, 1, 0, 1, 0, 1, 0, 1] =
        some { bc := { blocks := (NewBlockchain "t0").blocks ++
                        [CreateBlock t d1 now1, CreateBlock t d2 now2] },
               progress := [Progress.returned, Progress.returned] })) :=
  ⟨rfl, by decide,
    serial_calls_extend_chain "t0" [] [(samplePayload, "t1"), (otherPayload, "t2")]
      (NewBlockchain "t0") [1, 0] rfl (by decide)⟩

/-- C13 (exported hash shape): for every predecessor block, payload and clock
reading, the `Hash` of the block returned by `CreateBlock` is a string of exactly 64
characters, each in `0-9` or `a-f`; in every chain reached from `NewBlockchain()` by
`AddBlock` calls, the `Hash` of every block and the `PrevHash` of every block after
the genesis block are such strings. -/
theorem CreateBlock_hash_shape (prevBlock : Block) (d : Transaction) (now : String)
    (calls : List (Transaction × String)) :
    IsHexDigest (CreateBlock prevBlock d now).Hash ∧
    ∃ bc, chainAfter now calls = some bc ∧
      (∀ b ∈ bc.blocks, IsHexDigest b.Hash) ∧
      ∀ (i : Nat) (b : Block), bc.blocks[i + 1]? = some b → IsHexDigest b.PrevHash := by
  refine ⟨digest_isHexDigest _, ?_⟩
  obtain ⟨bc, hrun, -, hchain, hself, -⟩ := chainAfter_inv now calls
  refine ⟨bc, hrun, ?_, ?_⟩
  · intro b hb
    rw [hself b hb]
    exact digest_isHexDigest b
  · intro i b hb
    have hi : i + 1 < bc.blocks.length := by
      by_contra hge
      rw [List.getElem?_eq_none (by omega)] at hb
      exact absurd hb (by simp)
    have hp : bc.blocks[i]? = some (bc.blocks[i]) := List.getElem?_eq_getElem (by omega)
    obtain ⟨hlink, -⟩ := chain_get_linked hchain i _ b hp hb
    rw [hlink, hself _ (List.getElem_mem _)]
    exact digest_isHexDigest _

/-- C14 (tail access is safe): after `NewBlockchain()` and any finite sequence of
`AddBlock` calls no call has panicked, the chain has one block more than there were
calls and so is not empty, its last block exists, and one more `AddBlock` returns
with a chain that is longer by one block: the length never decreases. -/
theorem tail_access_safe (now : String) (calls : List (Transaction × String)) :
    ∃ bc, chainAfter now calls = some bc ∧ bc.blocks ≠ [] ∧
      bc.blocks.length = calls.length + 1 ∧
      (∃ t, bc.blocks[bc.blocks.length - 1]? = some t ∧ bc.blocks.getLast? = some t) ∧
      ∀ (d : Transaction) (now1 : String), ∃ bc1, AddBlock bc d now1 = some bc1 ∧
        chainAfter now (calls ++ [(d, now1)]) = some bc1 ∧
        bc.blocks.length ≤ bc1.blocks.length := by
  obtain ⟨bc, hrun, hinv⟩ := chainAfter_inv now calls
  have hne := hinv.1
  refine ⟨bc, hrun, hne, chainAfter_length now calls bc hrun, ?_, ?_⟩
  · cases hl : bc.blocks.getLast? with
    | none => exact absurd (List.getLast?_eq_none_iff.1 hl) hne
    | some t =>
        refine ⟨t, ?_, rfl⟩
        rw [← List.getLast?_eq_getElem?]
        exact hl
  · intro d now1
    obtain ⟨bc1, h1, -⟩ := ChainInv_AddBlock bc d now1 hinv
    refine ⟨bc1, h1, ?_, ?_⟩
    · rw [chainAfter_concat, hrun, Option.some_bind]
      exact h1
    · rw [AddBlock_length bc bc1 d now1 h1]
      omega

end EMR
